import Mathlib

/-!
Verification of the bencode codec of `src/parser/bencode.rs` and
`src/parser/byte_string.rs`.

Modelling conventions:
* a `u8` byte is a `Nat` (the Rust input is a `&[u8]`, so every byte is
  `< 256` and `char::from_u32(byte as u32)` always returns `Some`, making the
  `None` match arms of the source unreachable; they are therefore not
  modelled);
* a `ByteString` (a wrapper around `Vec<u8>`) is a `List Nat`;
* a `u64` is a `Nat` together with the explicit bound `< 2 ^ 64` recorded by
  the validity predicates below;
* an `IndexMap<ByteString, Bencode>` is its insertion-ordered list of
  key/value entries, `List (List Nat × Bencode)`;
* the mutually recursive parsing functions are driven by an explicit `fuel`
  parameter so that they are structurally recursive (and hence computable by
  the kernel).  Every parsing step consumes at least one input byte per unit
  of fuel spent, so `decode` runs them with fuel `input.length + 1`, which is
  never exhausted; `parse_fuel_sufficient` below proves that the artificial
  out-of-fuel branch is unreachable from `decode`.
-/

/-- The bound `2 ^ 64` of Rust's `u64`. -/
def u64Bound : Nat := 18446744073709551616

/-- The four-variant value tree `enum Bencode` from `src/parser/bencode.rs`:
`Text(ByteString)`, `Number(u64)`, `List(Vec<Self>)`,
`Dict(IndexMap<ByteString, Self>)`. -/
inductive Bencode where
  | Text : List Nat → Bencode
  | Number : Nat → Bencode
  | List : List Bencode → Bencode
  | Dict : List (List Nat × Bencode) → Bencode

/-- `BencodeParser::is_digit`: whether the byte is an ASCII digit
(`('0'..='9').contains(&c)`). -/
def is_digit (b : Nat) : Bool := 48 ≤ b && b ≤ 57

/-- Numeric value of a big-endian list of ASCII digit bytes (the value that
`str::parse::<u64>` computes from the collected digit characters). -/
def digitsVal (l : List Nat) : Nat := l.foldl (fun a b => a * 10 + (b - 48)) 0

/-- Model of `str::parse::<u64>()` applied to a collected character list:
succeeds iff the list is non-empty, all characters are digits, and the value
fits in a `u64`. -/
def parseU64 (s : List Nat) : Option Nat :=
  if s.isEmpty then none
  else if s.all is_digit then
    if digitsVal s < u64Bound then some (digitsVal s) else none
  else none

/-- Decimal digit bytes of `n`, most significant first, with fuel (so that the
definition is structurally recursive).  Models Rust's `format!("{}", n)` for
unsigned integers. -/
def decDigitsF : Nat → Nat → List Nat
  | 0, _ => []
  | f + 1, n => if n < 10 then [48 + n] else decDigitsF f (n / 10) ++ [48 + n % 10]

/-- Decimal digit bytes of `n`, most significant first (`n + 1` units of fuel
always suffice since the recursion depth is at most the number of digits). -/
def decDigits (n : Nat) : List Nat := decDigitsF (n + 1) n

/-- `ByteString::compare_vectors` from `src/parser/byte_string.rs`: count the
positionwise matches of the two byte vectors and require the count to equal
both lengths.  This is the `PartialEq` implementation of `ByteString`. -/
def compare_vectors (a b : List Nat) : Bool :=
  let matching := ((a.zip b).filter (fun p => p.1 == p.2)).length
  matching == a.length && matching == b.length

/-- `IndexMap::get` on the insertion-ordered entry list: the value of the
(unique, in a real `IndexMap`) entry whose key equals `k`, keys being compared
with `ByteString`'s `PartialEq` (`compare_vectors`). -/
def mapGet (m : List (List Nat × Bencode)) (k : List Nat) : Option Bencode :=
  (m.find? (fun p => compare_vectors p.1 k)).map Prod.snd

/-- `IndexMap::insert`: if an equal key is already present the entry keeps its
position and its value is replaced; otherwise the new entry is appended at the
end. -/
def indexInsert (m : List (List Nat × Bencode)) (k : List Nat) (v : Bencode) :
    List (List Nat × Bencode) :=
  if m.any (fun p => compare_vectors p.1 k) then
    m.map (fun p => if compare_vectors p.1 k then (k, v) else p)
  else m ++ [(k, v)]

/-- One-character string used by the error messages of the source (the
messages interpolate the offending character; the surrounding quote marks of
the Rust format strings are elided here). -/
def charOfByte (b : Nat) : String := String.singleton (Char.ofNat b)

/-- String shown for a digit-character list by the integer error message. -/
def stringOfBytes (l : List Nat) : String := String.mk (l.map (fun b => Char.ofNat b))

/-- Error type of the model: `msg` is a `BencodeError` with the given message
(as built by the source), while `fuelOut` is the artificial out-of-fuel error
of the model, which the source (recursing without bound) can never produce
and which `parse_fuel_sufficient` proves unreachable from `decode`. -/
inductive ParseErr where
  | msg : String → ParseErr
  | fuelOut : ParseErr
deriving DecidableEq

/-- Length-reading loop of `BencodeParser::parse_str`: starting from the
already-consumed first digit, push digit characters until a `:` (byte 58) is
reached; a non-digit other than `:` is an error; end of input simply leaves
the loop (the source's `for` loop runs out).  Returns the collected digit
bytes and the remaining input. -/
def read_str_len (acc : List Nat) : List Nat → Except ParseErr (List Nat × List Nat)
  | [] => .ok (acc, [])
  | b :: rest =>
    if is_digit b then read_str_len (acc ++ [b]) rest
    else if b = 58 then .ok (acc, rest)
    else .error (.msg ("invalid string length character: " ++ charOfByte b))

/-- `BencodeParser::parse_str`: read the declared length (whose first digit
`length_start` was already consumed by the caller), parse it as `u64`, then
take exactly that many bytes (or all remaining bytes if fewer are available,
as `Iterator::take` does) as the text payload. -/
def parse_str (length_start : Nat) (input : List Nat) :
    Except ParseErr (Bencode × List Nat) :=
  match read_str_len [length_start] input with
  | .error e => .error e
  | .ok (str_len, rest) =>
    match parseU64 str_len with
    | some n => .ok (.Text (rest.take n), rest.drop n)
    | none => .error (.msg ("Invalid string length " ++ stringOfBytes str_len))

/-- Digit-collecting loop of `BencodeParser::parse_int`: push digit characters
until an `e` (byte 101) is reached; any other byte is an error; end of input
leaves the loop (the source's `while let` runs out). -/
def read_int_digits (acc : List Nat) : List Nat → Except ParseErr (List Nat × List Nat)
  | [] => .ok (acc, [])
  | b :: rest =>
    if is_digit b then read_int_digits (acc ++ [b]) rest
    else if b = 101 then .ok (acc, rest)
    else .error (.msg ("invalid char " ++ charOfByte b ++ " when parsing integers"))

/-- `BencodeParser::parse_int`: collect the digit characters and parse them as
a `u64`. -/
def parse_int (input : List Nat) : Except ParseErr (Bencode × List Nat) :=
  match read_int_digits [] input with
  | .error e => .error e
  | .ok (digits, rest) =>
    match parseU64 digits with
    | some n => .ok (.Number n, rest)
    | none => .error (.msg ("invalid integer value " ++ stringOfBytes digits))

mutual
/-- `BencodeParser::parse`: dispatch on the first byte — `i` (105) integer,
`l` (108) list, `d` (100) dict, ASCII digit string, anything else an error;
empty input is the `Invalid Bencode content` error.  Returns the parsed value
and the remaining (unconsumed) input. -/
def parse : Nat → List Nat → Except ParseErr (Bencode × List Nat)
  | 0, _ => .error .fuelOut
  | _ + 1, [] => .error (.msg "Invalid Bencode content")
  | fuel + 1, b :: rest =>
    if b = 105 then parse_int rest
    else if b = 108 then parse_list fuel [] rest
    else if b = 100 then parse_dict fuel [] rest
    else if is_digit b then parse_str b rest
    else .error (.msg ("Invalid byte for bencode value: " ++ charOfByte b))

/-- Loop of `BencodeParser::parse_list` with the accumulator `acc` holding the
elements parsed so far: dispatch on the next byte exactly as the source's
`match` does (`l` nested list, `d` dict, `i` integer, digit string, `e`
closes the list, anything else an error); end of input leaves the loop and
the list is returned as parsed so far. -/
def parse_list : Nat → List Bencode → List Nat → Except ParseErr (Bencode × List Nat)
  | 0, _, _ => .error .fuelOut
  | _ + 1, acc, [] => .ok (.List acc, [])
  | fuel + 1, acc, b :: rest =>
    if b = 108 then
      match parse_list fuel [] rest with
      | .ok (v, rest1) => parse_list fuel (acc ++ [v]) rest1
      | .error e => .error e
    else if b = 100 then
      match parse_dict fuel [] rest with
      | .ok (v, rest1) => parse_list fuel (acc ++ [v]) rest1
      | .error e => .error e
    else if b = 105 then
      match parse_int rest with
      | .ok (v, rest1) => parse_list fuel (acc ++ [v]) rest1
      | .error e => .error e
    else if is_digit b then
      match parse_str b rest with
      | .ok (v, rest1) => parse_list fuel (acc ++ [v]) rest1
      | .error e => .error e
    else if b = 101 then .ok (.List acc, rest)
    else .error (.msg ("Invalid char " ++ charOfByte b))

/-- Loop of `BencodeParser::parse_dict` with the accumulator `map` holding the
entries inserted so far: a digit starts a key string (parsed by `parse_str`),
the following value is parsed by `parse`, and the pair is inserted with
`IndexMap::insert`; `e` closes the dict; anything else is an error; end of
input leaves the loop and the dict is returned as parsed so far. -/
def parse_dict : Nat → List (List Nat × Bencode) → List Nat → Except ParseErr (Bencode × List Nat)
  | 0, _, _ => .error .fuelOut
  | _ + 1, map, [] => .ok (.Dict map, [])
  | fuel + 1, map, b :: rest =>
    if is_digit b then
      match parse_str b rest with
      | .ok (.Text key, rest1) =>
        match parse fuel rest1 with
        | .ok (v, rest2) => parse_dict fuel (indexInsert map key v) rest2
        | .error e => .error e
      | .ok (_, _) => .error (.msg ("Invalid string byte " ++ charOfByte b))
      | .error e => .error e
    else if b = 101 then .ok (.Dict map, rest)
    else .error (.msg ("Invalid string byte for dict length " ++ charOfByte b))
end

/-- `BencodeParser::decode`: run `parse` on the whole buffer and return the
parsed value, ignoring whatever input remains.  The fuel `input.length + 1`
is an upper bound on the recursion depth of the source (which consumes at
least one byte per recursive step), so the out-of-fuel branch is never
taken. -/
def decode (input : List Nat) : Except ParseErr Bencode :=
  match parse (input.length + 1) input with
  | .ok (v, _) => .ok v
  | .error e => .error e

/-- `BencodeParser::encode_number`: `format!("i{}e", value)`. -/
def encode_number (n : Nat) : List Nat := 105 :: decDigits n ++ [101]

/-- `BencodeParser::encode_text`: decimal length, `:` (58), then the raw
bytes. -/
def encode_text (t : List Nat) : List Nat := decDigits t.length ++ [58] ++ t

mutual
/-- `BencodeParser::encode`: dispatch on the variant (the `encode_list` and
`encode_dict` bodies are inlined here so that the mutual recursion is
structural; the named wrappers are defined just below and agree
definitionally). -/
def encode : Bencode → List Nat
  | .Text t => encode_text t
  | .Number n => encode_number n
  | .List l => 108 :: encode_items l ++ [101]
  | .Dict d => 100 :: encode_pairs d ++ [101]

/-- Body loop of `encode_list`: concatenate `encode` of each element. -/
def encode_items : List Bencode → List Nat
  | [] => []
  | v :: vs => encode v ++ encode_items vs

/-- Body loop of `encode_dict`: for each entry in stored order the encoded key
(via `encode_text`) followed by the encoded value. -/
def encode_pairs : List (List Nat × Bencode) → List Nat
  | [] => []
  | (k, v) :: ps => encode_text k ++ encode v ++ encode_pairs ps
end

/-- `BencodeParser::encode_list`: `l`, the concatenated encodings of the
elements in order, `e`. -/
def encode_list (values : List Bencode) : List Nat :=
  108 :: encode_items values ++ [101]

/-- `BencodeParser::encode_dict`: `d`, the encoded entries in stored order,
`e`. -/
def encode_dict (d : List (List Nat × Bencode)) : List Nat :=
  100 :: encode_pairs d ++ [101]

mutual
/-- Structural (order-sensitive) equality of `Bencode` trees, used to build a
`DecidableEq` instance for the model type. -/
def structEq : Bencode → Bencode → Bool
  | .Text a, .Text b => a == b
  | .Number a, .Number b => a == b
  | .List a, .List b => structEqItems a b
  | .Dict a, .Dict b => structEqPairs a b
  | _, _ => false

/-- Structural equality of element lists. -/
def structEqItems : List Bencode → List Bencode → Bool
  | [], [] => true
  | x :: xs, y :: ys => structEq x y && structEqItems xs ys
  | _, _ => false

/-- Structural equality of entry lists. -/
def structEqPairs : List (List Nat × Bencode) → List (List Nat × Bencode) → Bool
  | [], [] => true
  | (k1, v1) :: ps, (k2, v2) :: qs => k1 == k2 && structEq v1 v2 && structEqPairs ps qs
  | _, _ => false
end

mutual
/-- Model of the derived `PartialEq` of `enum Bencode`: same variant and equal
payloads, where `Text` payloads are compared with `ByteString`'s
`compare_vectors`, `List` payloads with `Vec`'s length-and-elementwise
equality, and `Dict` payloads with `IndexMap`'s **order-independent**
equality (equal lengths and every entry of the left map present, with an
equal value, under the same key in the right map). -/
def bencodeEq : Bencode → Bencode → Bool
  | .Text a, .Text b => compare_vectors a b
  | .Number a, .Number b => a == b
  | .List a, .List b => a.length == b.length && listItemsEq a b
  | .Dict a, .Dict b => a.length == b.length && dictSubsetEq a b
  | _, _ => false

/-- Elementwise comparison of `Vec<Bencode>` (run after the length check, as
in Rust's slice `PartialEq`). -/
def listItemsEq : List Bencode → List Bencode → Bool
  | [], _ => true
  | _ :: _, [] => true
  | x :: xs, y :: ys => bencodeEq x y && listItemsEq xs ys

/-- `IndexMap` equality body: every entry of the first map is present in the
second map (looked up by key with `IndexMap::get`) with an equal value. -/
def dictSubsetEq : List (List Nat × Bencode) → List (List Nat × Bencode) → Bool
  | [], _ => true
  | (k, v) :: ps, b =>
    (match mapGet b k with
     | some w => bencodeEq v w
     | none => false) && dictSubsetEq ps b
end

/-- Whether `k` differs from every key of `ps` (used to state the
no-duplicate-keys invariant every real `IndexMap` satisfies). -/
def keyFresh (k : List Nat) : List (List Nat × Bencode) → Bool
  | [] => true
  | p :: ps => (if k = p.1 then false else true) && keyFresh k ps

mutual
/-- Representability of a model value as a real Rust `Bencode`: numbers and
byte-string lengths fit in `u64` (`Vec` lengths are `usize`), and every dict
has pairwise distinct keys (the `IndexMap` invariant). -/
def valid : Bencode → Bool
  | .Text t => t.length < u64Bound
  | .Number n => n < u64Bound
  | .List l => validItems l
  | .Dict d => validPairs d && nodupKeys d

/-- Representability of every element of a list. -/
def validItems : List Bencode → Bool
  | [] => true
  | v :: vs => valid v && validItems vs

/-- Representability of every entry of a dict body: key length fits in `u64`
and the value is representable.  (Deliberately does **not** require distinct
keys: `parse_dict` may well encounter the same key twice.) -/
def validPairs : List (List Nat × Bencode) → Bool
  | [] => true
  | (k, v) :: ps => (k.length < u64Bound && valid v) && validPairs ps

/-- Pairwise-distinct keys of a dict body. -/
def nodupKeys : List (List Nat × Bencode) → Bool
  | [] => true
  | (k, _) :: ps => keyFresh k ps && nodupKeys ps
end

/-- Keys of a dict body in stored order. -/
def keysOf (m : List (List Nat × Bencode)) : List (List Nat) := m.map Prod.fst

/-- `IndexMap::insert` folded over a list of parsed entries, starting from the
map `m` — exactly what the `parse_dict` loop computes on the entries it
reads. -/
def foldInsert (m : List (List Nat × Bencode)) (ps : List (List Nat × Bencode)) :
    List (List Nat × Bencode) :=
  ps.foldl (fun acc p => indexInsert acc p.1 p.2) m

/-- First-occurrence deduplication of a key list (`seen` holds the keys
already kept). -/
def dedupFirst (seen : List (List Nat)) : List (List Nat) → List (List Nat)
  | [] => []
  | k :: ks => if k ∈ seen then dedupFirst seen ks else k :: dedupFirst (seen ++ [k]) ks

/-- Value of the last entry of `ps` whose key is `k`, if any. -/
def lastAssoc : List (List Nat × Bencode) → List Nat → Option Bencode
  | [], _ => none
  | p :: ps, k =>
    match lastAssoc ps k with
    | some v => some v
    | none => if p.1 = k then some p.2 else none

/-- Nested singleton lists of the given depth: `nestedList 0` is the empty
list `le`, `nestedList (n+1)` is a list whose sole element is
`nestedList n`. -/
def nestedList : Nat → Bencode
  | 0 => .List []
  | n + 1 => .List [nestedList n]

/-! ### Arithmetic facts about the decimal digit encoding -/

theorem digitsVal_append (l : List Nat) (b : Nat) :
    digitsVal (l ++ [b]) = digitsVal l * 10 + (b - 48) := by
  simp [digitsVal, List.foldl_append]

theorem div10_le {n f : Nat} (h10 : 10 ≤ n) (h : n ≤ f + 1) : n / 10 ≤ f := by
  have h1 : n / 10 * 10 ≤ n := Nat.div_mul_le_self n 10
  have h2 : 1 ≤ n / 10 := (Nat.one_le_div_iff (by norm_num)).2 h10
  omega

theorem decDigitsF_spec : ∀ f n, n ≤ f →
    decDigitsF (f + 1) n ≠ [] ∧ (decDigitsF (f + 1) n).all is_digit = true ∧
      digitsVal (decDigitsF (f + 1) n) = n := by
  intro f
  induction f with
  | zero =>
    intro n hn
    interval_cases n
    simp [decDigitsF, digitsVal, is_digit]
  | succ f ih =>
    intro n hn
    by_cases h10 : n < 10
    · have hstep : decDigitsF (f + 1 + 1) n = [48 + n] := by
        conv_lhs => rw [decDigitsF]
        rw [if_pos h10]
      rw [hstep]
      refine ⟨by simp, ?_, by simp [digitsVal]⟩
      simp [is_digit]
      omega
    · have hd : n / 10 ≤ f := div10_le (by omega) hn
      obtain ⟨h1, h2, h3⟩ := ih (n / 10) hd
      have hstep : decDigitsF (f + 1 + 1) n = decDigitsF (f + 1) (n / 10) ++ [48 + n % 10] := by
        conv_lhs => rw [decDigitsF]
        rw [if_neg h10]
      have hmod : is_digit (48 + n % 10) = true := by
        simp [is_digit]
        omega
      rw [hstep]
      refine ⟨by simp [h1], ?_, ?_⟩
      · simp only [List.all_append, List.all_cons, List.all_nil, Bool.and_true, h2, hmod,
          Bool.and_self]
      · rw [digitsVal_append, h3]
        omega

theorem decDigits_ne_nil (n : Nat) : decDigits n ≠ [] :=
  (decDigitsF_spec n n le_rfl).1

theorem decDigits_all_digit (n : Nat) : (decDigits n).all is_digit = true :=
  (decDigitsF_spec n n le_rfl).2.1

theorem digitsVal_decDigits (n : Nat) : digitsVal (decDigits n) = n :=
  (decDigitsF_spec n n le_rfl).2.2

theorem parseU64_decDigits {n : Nat} (h : n < u64Bound) :
    parseU64 (decDigits n) = some n := by
  have h2 := decDigits_all_digit n
  have h3 := digitsVal_decDigits n
  cases hd : decDigits n with
  | nil => exact absurd hd (decDigits_ne_nil n)
  | cons d ds =>
    rw [hd] at h2 h3
    simp [parseU64, h2, h3, h]

theorem is_digit_bounds {b : Nat} (h : is_digit b = true) : 48 ≤ b ∧ b ≤ 57 := by
  simp [is_digit] at h
  exact h

/-! ### Specification lemmas for the leaf parsers -/

theorem read_str_len_spec : ∀ (ds acc rest : List Nat), ds.all is_digit = true →
    read_str_len acc (ds ++ 58 :: rest) = .ok (acc ++ ds, rest) := by
  intro ds
  induction ds with
  | nil =>
    intro acc rest _
    simp [read_str_len, is_digit]
  | cons d ds ih =>
    intro acc rest h
    simp only [List.all_cons, Bool.and_eq_true] at h
    simp only [List.cons_append, read_str_len, h.1, if_true, List.append_eq]
    rw [ih (acc ++ [d]) rest h.2]
    simp

theorem read_str_len_eof : ∀ (ds acc : List Nat), ds.all is_digit = true →
    read_str_len acc ds = .ok (acc ++ ds, []) := by
  intro ds
  induction ds with
  | nil => intro acc _; simp [read_str_len]
  | cons d ds ih =>
    intro acc h
    simp only [List.all_cons, Bool.and_eq_true] at h
    simp only [read_str_len, h.1, if_true, List.append_eq]
    rw [ih (acc ++ [d]) h.2]
    simp

theorem parse_str_encode {s : List Nat} {d : Nat} {ds : List Nat}
    (hd : decDigits s.length = d :: ds) (hlen : s.length < u64Bound)
    (rest : List Nat) :
    parse_str d (ds ++ 58 :: (s ++ rest)) = .ok (.Text s, rest) := by
  have hall : (d :: ds).all is_digit = true := by
    rw [← hd]; exact decDigits_all_digit s.length
  simp only [List.all_cons, Bool.and_eq_true] at hall
  have hacc : [d] ++ ds = decDigits s.length := hd.symm
  rw [parse_str, read_str_len_spec ds [d] (s ++ rest) hall.2]
  simp only [hacc, parseU64_decDigits hlen]
  simp [List.take_left, List.drop_left]

/-- `parse_str` with a declared length of at least the remaining byte count:
the whole remainder becomes the payload (`Iterator::take` stops early) and
nothing is left over. -/
theorem parse_str_short {len : Nat} {s : List Nat} {d : Nat} {ds : List Nat}
    (hd : decDigits len = d :: ds) (hlen : len < u64Bound)
    (hshort : s.length ≤ len) :
    parse_str d (ds ++ 58 :: s) = .ok (.Text s, []) := by
  have hall : (d :: ds).all is_digit = true := by
    rw [← hd]; exact decDigits_all_digit len
  simp only [List.all_cons, Bool.and_eq_true] at hall
  have hacc : [d] ++ ds = decDigits len := hd.symm
  rw [parse_str, read_str_len_spec ds [d] s hall.2]
  simp only [hacc, parseU64_decDigits hlen]
  simp [List.take_of_length_le hshort, List.drop_eq_nil_of_le hshort]

theorem read_int_digits_spec : ∀ (ds acc rest : List Nat), ds.all is_digit = true →
    read_int_digits acc (ds ++ 101 :: rest) = .ok (acc ++ ds, rest) := by
  intro ds
  induction ds with
  | nil => intro acc rest _; simp [read_int_digits, is_digit]
  | cons d ds ih =>
    intro acc rest h
    simp only [List.all_cons, Bool.and_eq_true] at h
    simp only [List.cons_append, read_int_digits, h.1, if_true, List.append_eq]
    rw [ih (acc ++ [d]) rest h.2]
    simp

theorem read_int_digits_eof : ∀ (ds acc : List Nat), ds.all is_digit = true →
    read_int_digits acc ds = .ok (acc ++ ds, []) := by
  intro ds
  induction ds with
  | nil => intro acc _; simp [read_int_digits]
  | cons d ds ih =>
    intro acc h
    simp only [List.all_cons, Bool.and_eq_true] at h
    simp only [read_int_digits, h.1, if_true, List.append_eq]
    rw [ih (acc ++ [d]) h.2]
    simp

theorem parse_int_encode {n : Nat} (h : n < u64Bound) (rest : List Nat) :
    parse_int (decDigits n ++ 101 :: rest) = .ok (.Number n, rest) := by
  rw [parse_int, read_int_digits_spec (decDigits n) [] rest (decDigits_all_digit n)]
  simp only [List.nil_append, parseU64_decDigits h]

theorem parse_int_eof {ds : List Nat} (h1 : ds ≠ []) (h2 : ds.all is_digit = true)
    (h3 : digitsVal ds < u64Bound) :
    parse_int ds = .ok (.Number (digitsVal ds), []) := by
  rw [parse_int, read_int_digits_eof ds [] h2]
  cases ds with
  | nil => exact absurd rfl h1
  | cons d ds => simp [parseU64, h2, h3]

/-! ### The `ByteString` equality `compare_vectors` is bytewise equality -/

theorem zip_filter_len_iff : ∀ (a b : List Nat),
    ((((a.zip b).filter (fun p => p.1 == p.2)).length = a.length) ∧
      (((a.zip b).filter (fun p => p.1 == p.2)).length = b.length)) ↔ a = b := by
  intro a
  induction a with
  | nil =>
    intro b
    cases b <;> simp
  | cons x xs ih =>
    intro b
    cases b with
    | nil => simp
    | cons y ys =>
      have hle1 : ((xs.zip ys).filter (fun p => p.1 == p.2)).length ≤ xs.length :=
        le_trans (List.length_filter_le _ _) (by rw [List.length_zip]; omega)
      rw [List.zip_cons_cons, List.filter_cons]
      by_cases hxy : x = y
      · subst hxy
        simp only [beq_self_eq_true, if_true, List.length_cons, Nat.add_right_cancel_iff,
          List.cons.injEq, true_and]
        exact ih ys
      · rw [if_neg (by simp [hxy])]
        simp only [List.length_cons]
        constructor
        · rintro ⟨h1, _⟩
          omega
        · intro h
          injection h with h1 _
          exact absurd h1 hxy

theorem compare_vectors_iff (a b : List Nat) : compare_vectors a b = true ↔ a = b := by
  rw [compare_vectors]
  simp only [Bool.and_eq_true, beq_iff_eq]
  exact zip_filter_len_iff a b

theorem cv_decide (a b : List Nat) : compare_vectors a b = decide (a = b) := by
  by_cases h : a = b
  · subst h
    simp [(compare_vectors_iff a a).2 rfl]
  · have hfalse : compare_vectors a b = false :=
      Bool.eq_false_iff.2 (fun hc => h ((compare_vectors_iff a b).1 hc))
    simp [hfalse, h]

/-! ### `IndexMap` lookup and insertion lemmas -/

theorem cv_self (k : List Nat) : compare_vectors k k = true :=
  (compare_vectors_iff k k).2 rfl

theorem cv_false {a b : List Nat} (h : a ≠ b) : compare_vectors a b = false :=
  Bool.eq_false_iff.2 (fun hc => h ((compare_vectors_iff a b).1 hc))

theorem mapGet_nil (k : List Nat) : mapGet [] k = none := rfl

theorem mapGet_cons (k1 : List Nat) (v1 : Bencode) (m : List (List Nat × Bencode))
    (k : List Nat) :
    mapGet ((k1, v1) :: m) k = if k1 = k then some v1 else mapGet m k := by
  by_cases h : k1 = k
  · subst h
    simp [mapGet, cv_self]
  · simp [mapGet, cv_false h, h]

theorem any_cv_iff (m : List (List Nat × Bencode)) (k : List Nat) :
    (m.any fun p => compare_vectors p.1 k) = true ↔ k ∈ keysOf m := by
  simp only [List.any_eq_true, keysOf, List.mem_map]
  constructor
  · rintro ⟨p, hp, hc⟩
    exact ⟨p, hp, (compare_vectors_iff p.1 k).1 hc⟩
  · rintro ⟨p, hp, hc⟩
    exact ⟨p, hp, (compare_vectors_iff p.1 k).2 hc⟩

theorem indexInsert_fresh {m : List (List Nat × Bencode)} {k : List Nat} (v : Bencode)
    (h : k ∉ keysOf m) : indexInsert m k v = m ++ [(k, v)] := by
  rw [indexInsert, if_neg]
  intro hc
  exact h ((any_cv_iff m k).1 hc)

theorem find_map_replace (k : List Nat) (v : Bencode) :
    ∀ m : List (List Nat × Bencode),
    ((m.map (fun p => if compare_vectors p.1 k then (k, v) else p)).find?
        (fun p => compare_vectors p.1 k)) =
      if (m.any fun p => compare_vectors p.1 k) = true then some (k, v) else none := by
  intro m
  induction m with
  | nil => simp
  | cons p m ih =>
    by_cases hc : compare_vectors p.1 k = true
    · simp [hc, cv_self k, List.any_cons]
    · have hcf : compare_vectors p.1 k = false := Bool.eq_false_iff.2 hc
      have hany : ((p :: m).any fun p => compare_vectors p.1 k) =
          (m.any fun p => compare_vectors p.1 k) := by
        simp [List.any_cons, hcf]
      simp [hcf, ih, hany]
      conv_rhs => rw [hcf]
      rw [Bool.false_or]

theorem find_map_other (k k1 : List Nat) (v : Bencode) (hne : k1 ≠ k) :
    ∀ m : List (List Nat × Bencode),
      ((m.map (fun p => if compare_vectors p.1 k then (k, v) else p)).find?
          (fun p => compare_vectors p.1 k1)) =
        m.find? (fun p => compare_vectors p.1 k1) := by
  intro m
  have hkk1 : compare_vectors k k1 = false := cv_false (Ne.symm hne)
  induction m with
  | nil => simp
  | cons p m ih =>
    by_cases hc : compare_vectors p.1 k = true
    · have hp1 : p.1 = k := (compare_vectors_iff p.1 k).1 hc
      have h2 : compare_vectors p.1 k1 = false := by rw [hp1]; exact hkk1
      simp [hc, hkk1, h2, ih]
    · have hcf : compare_vectors p.1 k = false := Bool.eq_false_iff.2 hc
      by_cases hc1 : compare_vectors p.1 k1 = true
      · simp [hcf, hc1]
      · have hc1f : compare_vectors p.1 k1 = false := Bool.eq_false_iff.2 hc1
        simp [hcf, hc1f, ih]

theorem mapGet_indexInsert_self (m : List (List Nat × Bencode)) (k : List Nat)
    (v : Bencode) : mapGet (indexInsert m k v) k = some v := by
  rw [indexInsert]
  by_cases hany : (m.any fun p => compare_vectors p.1 k) = true
  · rw [if_pos hany, mapGet, find_map_replace, if_pos hany]
    rfl
  · rw [if_neg hany]
    have hnone : m.find? (fun p => compare_vectors p.1 k) = none :=
      List.find?_eq_none.2 (fun p hp hc => hany (List.any_eq_true.2 ⟨p, hp, hc⟩))
    simp [mapGet, List.find?_append, hnone, cv_self k]

theorem mapGet_indexInsert_other (m : List (List Nat × Bencode)) {k k1 : List Nat}
    (v : Bencode) (hne : k1 ≠ k) :
    mapGet (indexInsert m k v) k1 = mapGet m k1 := by
  rw [indexInsert]
  by_cases hany : (m.any fun p => compare_vectors p.1 k) = true
  · rw [if_pos hany, mapGet, find_map_other k k1 v hne m, mapGet]
  · rw [if_neg hany]
    have hkk1 : compare_vectors k k1 = false := cv_false (Ne.symm hne)
    simp [mapGet, List.find?_append, hkk1]

theorem keysOf_indexInsert (m : List (List Nat × Bencode)) (k : List Nat) (v : Bencode) :
    keysOf (indexInsert m k v) =
      if k ∈ keysOf m then keysOf m else keysOf m ++ [k] := by
  by_cases hmem : k ∈ keysOf m
  · rw [if_pos hmem, indexInsert, if_pos ((any_cv_iff m k).2 hmem), keysOf, keysOf,
      List.map_map]
    apply List.map_congr_left
    intro p _
    by_cases hc : compare_vectors p.1 k = true
    · have hp1 : p.1 = k := (compare_vectors_iff p.1 k).1 hc
      simp [Function.comp, cv_self, hp1]
    · have hcf : compare_vectors p.1 k = false := Bool.eq_false_iff.2 hc
      simp [Function.comp, hcf]
  · rw [if_neg hmem, indexInsert, if_neg (fun hc => hmem ((any_cv_iff m k).1 hc)), keysOf,
      keysOf, List.map_append]
    rfl

/-! ### Folded insertion: what the `parse_dict` loop builds -/

theorem keysOf_cons (p : List Nat × Bencode) (m : List (List Nat × Bencode)) :
    keysOf (p :: m) = p.1 :: keysOf m := rfl

theorem keysOf_append (a b : List (List Nat × Bencode)) :
    keysOf (a ++ b) = keysOf a ++ keysOf b := List.map_append _ _ _

theorem foldInsert_nil (m : List (List Nat × Bencode)) : foldInsert m [] = m := rfl

theorem foldInsert_cons (m : List (List Nat × Bencode)) (k : List Nat) (v : Bencode)
    (ps : List (List Nat × Bencode)) :
    foldInsert m ((k, v) :: ps) = foldInsert (indexInsert m k v) ps := rfl

theorem keyFresh_iff : ∀ (ps : List (List Nat × Bencode)) (k : List Nat),
    keyFresh k ps = true ↔ k ∉ keysOf ps := by
  intro ps
  induction ps with
  | nil => intro k; simp [keyFresh, keysOf]
  | cons p ps ih =>
    intro k
    by_cases h : k = p.1 <;> simp [keyFresh, h, ih, keysOf_cons]

theorem nodupKeys_iff : ∀ d : List (List Nat × Bencode),
    nodupKeys d = true ↔ (keysOf d).Nodup := by
  intro d
  induction d with
  | nil => simp [nodupKeys, keysOf]
  | cons p ps ih =>
    obtain ⟨k, v⟩ := p
    simp [nodupKeys, keyFresh_iff, ih, keysOf_cons, List.nodup_cons]

theorem foldInsert_fresh_append : ∀ (ps m : List (List Nat × Bencode)),
    (∀ p ∈ ps, p.1 ∉ keysOf m) → nodupKeys ps = true → foldInsert m ps = m ++ ps := by
  intro ps
  induction ps with
  | nil => intro m _ _; simp [foldInsert_nil]
  | cons p ps ih =>
    obtain ⟨k, v⟩ := p
    intro m hdisj hnd
    simp only [nodupKeys, Bool.and_eq_true] at hnd
    rw [foldInsert_cons,
      indexInsert_fresh v (hdisj (k, v) (List.mem_cons_self _ _)),
      ih (m ++ [(k, v)]) ?_ hnd.2]
    · simp
    · intro p hp
      rw [keysOf_append]
      simp only [List.mem_append, not_or]
      refine ⟨hdisj p (List.mem_cons_of_mem _ hp), ?_⟩
      have hk : k ∉ keysOf ps := (keyFresh_iff ps k).1 hnd.1
      simp only [keysOf, List.map_cons, List.map_nil, List.mem_singleton]
      intro hcontra
      exact hk (by rw [← hcontra]; exact List.mem_map_of_mem Prod.fst hp)

theorem foldInsert_id {ps : List (List Nat × Bencode)} (h : nodupKeys ps = true) :
    foldInsert [] ps = ps :=
  foldInsert_fresh_append ps [] (by intro p _; simp [keysOf]) h

theorem mem_dedupFirst : ∀ (ks seen : List (List Nat)) (x : List Nat),
    x ∈ dedupFirst seen ks ↔ (x ∈ ks ∧ x ∉ seen) := by
  intro ks
  induction ks with
  | nil => intro seen x; simp [dedupFirst]
  | cons k ks ih =>
    intro seen x
    by_cases hk : k ∈ seen
    · rw [dedupFirst, if_pos hk, ih]
      constructor
      · rintro ⟨h1, h2⟩
        exact ⟨List.mem_cons_of_mem _ h1, h2⟩
      · rintro ⟨h1, h2⟩
        rcases List.mem_cons.1 h1 with h | h
        · exact absurd (h ▸ hk) h2
        · exact ⟨h, h2⟩
    · rw [dedupFirst, if_neg hk]
      by_cases hx : x = k
      · subst hx
        simp [hk]
      · simp only [List.mem_cons, hx, false_or, ih, List.mem_append,
          List.mem_singleton, not_or]
        tauto

theorem nodup_dedupFirst : ∀ (ks seen : List (List Nat)), (dedupFirst seen ks).Nodup := by
  intro ks
  induction ks with
  | nil => intro seen; simp [dedupFirst]
  | cons k ks ih =>
    intro seen
    by_cases hk : k ∈ seen
    · rw [dedupFirst, if_pos hk]
      exact ih seen
    · rw [dedupFirst, if_neg hk]
      refine List.nodup_cons.2 ⟨?_, ih (seen ++ [k])⟩
      intro hmem
      have := (mem_dedupFirst ks (seen ++ [k]) k).1 hmem
      simp at this

theorem keysOf_foldInsert : ∀ (ps m : List (List Nat × Bencode)),
    keysOf (foldInsert m ps) = keysOf m ++ dedupFirst (keysOf m) (ps.map Prod.fst) := by
  intro ps
  induction ps with
  | nil => intro m; simp [foldInsert_nil, dedupFirst]
  | cons p ps ih =>
    obtain ⟨k, v⟩ := p
    intro m
    rw [foldInsert_cons, ih (indexInsert m k v), keysOf_indexInsert, List.map_cons]
    by_cases hk : k ∈ keysOf m
    · rw [if_pos hk, dedupFirst, if_pos hk]
    · rw [if_neg hk, dedupFirst, if_neg hk]
      simp

theorem mapGet_foldInsert : ∀ (ps m : List (List Nat × Bencode)) (k : List Nat),
    mapGet (foldInsert m ps) k =
      match lastAssoc ps k with
      | some v => some v
      | none => mapGet m k := by
  intro ps
  induction ps with
  | nil => intro m k; rw [foldInsert_nil, lastAssoc]
  | cons p ps ih =>
    obtain ⟨k1, v1⟩ := p
    intro m k
    rw [foldInsert_cons, ih (indexInsert m k1 v1) k, lastAssoc]
    cases hl : lastAssoc ps k with
    | some w => rfl
    | none =>
      by_cases hk : k1 = k
      · subst hk
        simp [mapGet_indexInsert_self]
      · simp [mapGet_indexInsert_other m v1 (Ne.symm hk), hk]

theorem countP_keys : ∀ (m : List (List Nat × Bencode)), (keysOf m).Nodup →
    ∀ k : List Nat, m.countP (fun p => decide (p.1 = k)) =
      if k ∈ keysOf m then 1 else 0 := by
  intro m
  induction m with
  | nil => intro _ k; simp [keysOf]
  | cons p m ih =>
    obtain ⟨k1, v1⟩ := p
    intro hnd k
    rw [keysOf_cons, List.nodup_cons] at hnd
    rw [List.countP_cons, ih hnd.2 k]
    by_cases h : k1 = k
    · subst h
      simp [keysOf_cons, hnd.1]
    · have h2 : ¬(k = k1) := fun hh => h hh.symm
      simp only [keysOf_cons, List.mem_cons]
      by_cases hmem : k ∈ keysOf m <;> simp [h, h2, hmem]

/-! ### Length facts about the encoder -/

theorem encode_text_len (k : List Nat) : 2 ≤ (encode_text k).length := by
  have h := List.length_pos.2 (decDigits_ne_nil k.length)
  simp [encode_text]
  omega

theorem encode_len_pos : ∀ v : Bencode, 1 ≤ (encode v).length := by
  intro v
  cases v with
  | Text t => exact le_trans (by omega) (encode_text_len t)
  | Number n => simp [encode, encode_number]
  | List l => simp [encode]
  | Dict d => simp [encode]

theorem digit_ne_105 {d : Nat} (h : is_digit d = true) : ¬(d = 105) := by
  have := is_digit_bounds h
  omega

theorem digit_ne_108 {d : Nat} (h : is_digit d = true) : ¬(d = 108) := by
  have := is_digit_bounds h
  omega

theorem digit_ne_100 {d : Nat} (h : is_digit d = true) : ¬(d = 100) := by
  have := is_digit_bounds h
  omega

theorem decDigits_head (n : Nat) : ∃ d ds, decDigits n = d :: ds ∧ is_digit d = true := by
  cases hdd : decDigits n with
  | nil => exact absurd hdd (decDigits_ne_nil _)
  | cons d ds =>
    refine ⟨d, ds, rfl, ?_⟩
    have := decDigits_all_digit n
    rw [hdd] at this
    simp only [List.all_cons, Bool.and_eq_true] at this
    exact this.1

/-! ### The central parsing theorem: `parse` inverts `encode`, with the
`parse_list` and `parse_dict` loops handled both with and without their
closing `e` (the without-`e` cases are what happens when the input is
truncated at a container boundary). -/

theorem parse_encode_spec : ∀ fuel : Nat,
    (∀ (v : Bencode) (rest : List Nat), valid v = true →
      (encode v).length < fuel →
      parse fuel (encode v ++ rest) = .ok (v, rest)) ∧
    (∀ (l : List Bencode) (acc : List Bencode) (rest : List Nat),
      validItems l = true → (encode_items l).length < fuel →
      parse_list fuel acc (encode_items l ++ 101 :: rest) = .ok (.List (acc ++ l), rest)) ∧
    (∀ (l : List Bencode) (acc : List Bencode), validItems l = true →
      (encode_items l).length < fuel →
      parse_list fuel acc (encode_items l) = .ok (.List (acc ++ l), [])) ∧
    (∀ (ps : List (List Nat × Bencode)) (m : List (List Nat × Bencode)) (rest : List Nat),
      validPairs ps = true → (encode_pairs ps).length < fuel →
      parse_dict fuel m (encode_pairs ps ++ 101 :: rest) =
        .ok (.Dict (foldInsert m ps), rest)) ∧
    (∀ (ps : List (List Nat × Bencode)) (m : List (List Nat × Bencode)),
      validPairs ps = true → (encode_pairs ps).length < fuel →
      parse_dict fuel m (encode_pairs ps) = .ok (.Dict (foldInsert m ps), [])) := by
  intro fuel
  induction fuel with
  | zero =>
    refine ⟨?_, ?_, ?_, ?_, ?_⟩ <;> intros <;> omega
  | succ fuel ih =>
    obtain ⟨ih1, ih2, ih3, ih4, ih5⟩ := ih
    refine ⟨?_, ?_, ?_, ?_, ?_⟩
    · -- parse on a full encoded value
      intro v rest hv hlen
      cases v with
      | Text s =>
        have hv1 : s.length < u64Bound := by simpa [valid] using hv
        obtain ⟨d, ds, hd, hdig⟩ := decDigits_head s.length
        have hshape : encode (.Text s) ++ rest = d :: (ds ++ 58 :: (s ++ rest)) := by
          simp [encode, encode_text, hd]
        rw [hshape]
        simp only [parse, if_neg (digit_ne_105 hdig), if_neg (digit_ne_108 hdig),
          if_neg (digit_ne_100 hdig), hdig, if_true]
        exact parse_str_encode hd hv1 rest
      | Number n =>
        have hv1 : n < u64Bound := by simpa [valid] using hv
        have hshape : encode (.Number n) ++ rest = 105 :: (decDigits n ++ 101 :: rest) := by
          simp [encode, encode_number]
        rw [hshape]
        simp only [parse, if_pos rfl]
        exact parse_int_encode hv1 rest
      | List l =>
        have hv1 : validItems l = true := by simpa [valid] using hv
        have hlen1 : (encode_items l).length < fuel := by
          have : (encode (.List l)).length = (encode_items l).length + 2 := by
            simp [encode]
          omega
        have hshape : encode (.List l) ++ rest = 108 :: (encode_items l ++ 101 :: rest) := by
          simp [encode]
        rw [hshape]
        simp only [parse, if_neg (by omega : ¬(108 = 105)), if_pos rfl]
        have := ih2 l [] rest hv1 hlen1
        simpa using this
      | Dict d =>
        have hv1 : validPairs d = true ∧ nodupKeys d = true := by
          simpa [valid, Bool.and_eq_true] using hv
        have hlen1 : (encode_pairs d).length < fuel := by
          have : (encode (.Dict d)).length = (encode_pairs d).length + 2 := by
            simp [encode]
          omega
        have hshape : encode (.Dict d) ++ rest = 100 :: (encode_pairs d ++ 101 :: rest) := by
          simp [encode]
        rw [hshape]
        simp only [parse, if_neg (by omega : ¬(100 = 105)), if_neg (by omega : ¬(100 = 108)),
          if_pos rfl]
        rw [ih4 d [] rest hv1.1 hlen1, foldInsert_id hv1.2]
        simp
    · -- parse_list loop, closing `e` present
      intro l acc rest hv hlen
      cases l with
      | nil =>
        simp only [encode_items, List.nil_append]
        simp only [parse_list, if_neg (by omega : ¬(101 = 108)),
          if_neg (by omega : ¬(101 = 100)), if_neg (by omega : ¬(101 = 105)),
          show is_digit 101 = false by decide, Bool.false_eq_true, if_false, if_pos rfl]
        simp
      | cons v vs =>
        have hv2 : valid v = true ∧ validItems vs = true := by
          simpa [validItems, Bool.and_eq_true] using hv
        have hlen0 : (encode_items (v :: vs)).length =
            (encode v).length + (encode_items vs).length := by
          simp [encode_items]
        have hpos := encode_len_pos v
        have hlenvs : (encode_items vs).length < fuel := by omega
        cases v with
        | Text s =>
          have hs : s.length < u64Bound := by simpa [valid] using hv2.1
          obtain ⟨d, ds, hd, hdig⟩ := decDigits_head s.length
          have hshape : encode_items (.Text s :: vs) ++ 101 :: rest =
              d :: (ds ++ 58 :: (s ++ (encode_items vs ++ 101 :: rest))) := by
            simp [encode_items, encode, encode_text, hd]
          rw [hshape]
          simp only [parse_list, if_neg (digit_ne_108 hdig), if_neg (digit_ne_100 hdig),
            if_neg (digit_ne_105 hdig), hdig, if_true]
          rw [parse_str_encode hd hs (encode_items vs ++ 101 :: rest)]
          simp [ih2 vs (acc ++ [Bencode.Text s]) rest hv2.2 hlenvs]
        | Number n =>
          have hn : n < u64Bound := by simpa [valid] using hv2.1
          have hshape : encode_items (.Number n :: vs) ++ 101 :: rest =
              105 :: (decDigits n ++ 101 :: (encode_items vs ++ 101 :: rest)) := by
            simp [encode_items, encode, encode_number]
          rw [hshape]
          simp only [parse_list, if_neg (by omega : ¬(105 = 108)),
            if_neg (by omega : ¬(105 = 100)), if_pos rfl]
          rw [parse_int_encode hn (encode_items vs ++ 101 :: rest)]
          simp [ih2 vs (acc ++ [Bencode.Number n]) rest hv2.2 hlenvs]
        | List l1 =>
          have hl1 : validItems l1 = true := by simpa [valid] using hv2.1
          have hlenl1 : (encode_items l1).length < fuel := by
            have : (encode (.List l1)).length = (encode_items l1).length + 2 := by
              simp [encode]
            omega
          have hshape : encode_items (.List l1 :: vs) ++ 101 :: rest =
              108 :: (encode_items l1 ++ 101 :: (encode_items vs ++ 101 :: rest)) := by
            simp [encode_items, encode]
          rw [hshape]
          simp only [parse_list, if_pos rfl]
          rw [ih2 l1 [] (encode_items vs ++ 101 :: rest) hl1 hlenl1]
          simp [ih2 vs (acc ++ [Bencode.List l1]) rest hv2.2 hlenvs]
        | Dict d1 =>
          have hd1 : validPairs d1 = true ∧ nodupKeys d1 = true := by
            simpa [valid, Bool.and_eq_true] using hv2.1
          have hlend1 : (encode_pairs d1).length < fuel := by
            have : (encode (.Dict d1)).length = (encode_pairs d1).length + 2 := by
              simp [encode]
            omega
          have hshape : encode_items (.Dict d1 :: vs) ++ 101 :: rest =
              100 :: (encode_pairs d1 ++ 101 :: (encode_items vs ++ 101 :: rest)) := by
            simp [encode_items, encode]
          rw [hshape]
          simp only [parse_list, if_neg (by omega : ¬(100 = 108)), if_pos rfl]
          rw [ih4 d1 [] (encode_items vs ++ 101 :: rest) hd1.1 hlend1,
            foldInsert_id hd1.2]
          simp [ih2 vs (acc ++ [Bencode.Dict d1]) rest hv2.2 hlenvs]
    · -- parse_list loop, input ends at the container boundary
      intro l acc hv hlen
      cases l with
      | nil =>
        simp only [encode_items]
        simp only [parse_list]
        simp
      | cons v vs =>
        have hv2 : valid v = true ∧ validItems vs = true := by
          simpa [validItems, Bool.and_eq_true] using hv
        have hlen0 : (encode_items (v :: vs)).length =
            (encode v).length + (encode_items vs).length := by
          simp [encode_items]
        have hpos := encode_len_pos v
        have hlenvs : (encode_items vs).length < fuel := by omega
        cases v with
        | Text s =>
          have hs : s.length < u64Bound := by simpa [valid] using hv2.1
          obtain ⟨d, ds, hd, hdig⟩ := decDigits_head s.length
          have hshape : encode_items (.Text s :: vs) =
              d :: (ds ++ 58 :: (s ++ encode_items vs)) := by
            simp [encode_items, encode, encode_text, hd]
          rw [hshape]
          simp only [parse_list, if_neg (digit_ne_108 hdig), if_neg (digit_ne_100 hdig),
            if_neg (digit_ne_105 hdig), hdig, if_true]
          rw [parse_str_encode hd hs (encode_items vs)]
          simp [ih3 vs (acc ++ [Bencode.Text s]) hv2.2 hlenvs]
        | Number n =>
          have hn : n < u64Bound := by simpa [valid] using hv2.1
          have hshape : encode_items (.Number n :: vs) =
              105 :: (decDigits n ++ 101 :: encode_items vs) := by
            simp [encode_items, encode, encode_number]
          rw [hshape]
          simp only [parse_list, if_neg (by omega : ¬(105 = 108)),
            if_neg (by omega : ¬(105 = 100)), if_pos rfl]
          rw [parse_int_encode hn (encode_items vs)]
          simp [ih3 vs (acc ++ [Bencode.Number n]) hv2.2 hlenvs]
        | List l1 =>
          have hl1 : validItems l1 = true := by simpa [valid] using hv2.1
          have hlenl1 : (encode_items l1).length < fuel := by
            have : (encode (.List l1)).length = (encode_items l1).length + 2 := by
              simp [encode]
            omega
          have hshape : encode_items (.List l1 :: vs) =
              108 :: (encode_items l1 ++ 101 :: encode_items vs) := by
            simp [encode_items, encode]
          rw [hshape]
          simp only [parse_list, if_pos rfl]
          rw [ih2 l1 [] (encode_items vs) hl1 hlenl1]
          simp [ih3 vs (acc ++ [Bencode.List l1]) hv2.2 hlenvs]
        | Dict d1 =>
          have hd1 : validPairs d1 = true ∧ nodupKeys d1 = true := by
            simpa [valid, Bool.and_eq_true] using hv2.1
          have hlend1 : (encode_pairs d1).length < fuel := by
            have : (encode (.Dict d1)).length = (encode_pairs d1).length + 2 := by
              simp [encode]
            omega
          have hshape : encode_items (.Dict d1 :: vs) =
              100 :: (encode_pairs d1 ++ 101 :: encode_items vs) := by
            simp [encode_items, encode]
          rw [hshape]
          simp only [parse_list, if_neg (by omega : ¬(100 = 108)), if_pos rfl]
          rw [ih4 d1 [] (encode_items vs) hd1.1 hlend1, foldInsert_id hd1.2]
          simp [ih3 vs (acc ++ [Bencode.Dict d1]) hv2.2 hlenvs]
    · -- parse_dict loop, closing `e` present
      intro ps m rest hv hlen
      cases ps with
      | nil =>
        simp only [encode_pairs, List.nil_append]
        simp only [parse_dict, show is_digit 101 = false by decide, Bool.false_eq_true,
          if_false, if_pos rfl]
        rw [foldInsert_nil]
        simp
      | cons p ps =>
        obtain ⟨k, v⟩ := p
        have hv2 : (k.length < u64Bound ∧ valid v = true) ∧ validPairs ps = true := by
          simpa [validPairs, Bool.and_eq_true] using hv
        obtain ⟨d, ds, hd, hdig⟩ := decDigits_head k.length
        have hlens : (encode_pairs ((k, v) :: ps)).length =
            (encode_text k).length + (encode v).length + (encode_pairs ps).length := by
          simp [encode_pairs]
          omega
        have htl := encode_text_len k
        have hvlen : (encode v).length < fuel := by
          have := encode_len_pos v
          omega
        have hpslen : (encode_pairs ps).length < fuel := by
          have := encode_len_pos v
          omega
        have hshape : encode_pairs ((k, v) :: ps) ++ 101 :: rest =
            d :: (ds ++ 58 :: (k ++ (encode v ++ (encode_pairs ps ++ 101 :: rest)))) := by
          simp [encode_pairs, encode_text, hd]
        rw [hshape]
        simp only [parse_dict, hdig, if_true]
        rw [parse_str_encode hd hv2.1.1 (encode v ++ (encode_pairs ps ++ 101 :: rest))]
        simp [ih1 v (encode_pairs ps ++ 101 :: rest) hv2.1.2 hvlen,
          ih4 ps (indexInsert m k v) rest hv2.2 hpslen, foldInsert_cons]
    · -- parse_dict loop, input ends at the container boundary
      intro ps m hv hlen
      cases ps with
      | nil =>
        simp only [encode_pairs]
        simp only [parse_dict]
        rw [foldInsert_nil]
      | cons p ps =>
        obtain ⟨k, v⟩ := p
        have hv2 : (k.length < u64Bound ∧ valid v = true) ∧ validPairs ps = true := by
          simpa [validPairs, Bool.and_eq_true] using hv
        obtain ⟨d, ds, hd, hdig⟩ := decDigits_head k.length
        have hlens : (encode_pairs ((k, v) :: ps)).length =
            (encode_text k).length + (encode v).length + (encode_pairs ps).length := by
          simp [encode_pairs]
          omega
        have htl := encode_text_len k
        have hvlen : (encode v).length < fuel := by
          have := encode_len_pos v
          omega
        have hpslen : (encode_pairs ps).length < fuel := by
          have := encode_len_pos v
          omega
        have hshape : encode_pairs ((k, v) :: ps) =
            d :: (ds ++ 58 :: (k ++ (encode v ++ encode_pairs ps))) := by
          simp [encode_pairs, encode_text, hd]
        rw [hshape]
        simp only [parse_dict, hdig, if_true]
        rw [parse_str_encode hd hv2.1.1 (encode v ++ encode_pairs ps)]
        simp [ih1 v (encode_pairs ps) hv2.1.2 hvlen,
          ih5 ps (indexInsert m k v) hv2.2 hpslen, foldInsert_cons]

/-! ### Decode-level corollaries -/

theorem decode_encode_append (v : Bencode) (extra : List Nat) (h : valid v = true) :
    decode (encode v ++ extra) = .ok v := by
  have hlen : (encode v).length < (encode v ++ extra).length + 1 := by
    rw [List.length_append]
    omega
  rw [decode, (parse_encode_spec ((encode v ++ extra).length + 1)).1 v extra h hlen]

theorem decode_encode (v : Bencode) (h : valid v = true) : decode (encode v) = .ok v := by
  have := decode_encode_append v [] h
  simpa using this

theorem decode_unclosed_list (l : List Bencode) (h : validItems l = true) :
    decode (108 :: encode_items l) = .ok (.List l) := by
  rw [decode]
  simp only [List.length_cons]
  simp only [parse, if_neg (by omega : ¬(108 = 105)), if_pos rfl]
  rw [(parse_encode_spec ((encode_items l).length + 1)).2.2.1 l [] h (by omega)]
  simp

theorem decode_unclosed_dict (ps : List (List Nat × Bencode)) (h : validPairs ps = true) :
    decode (100 :: encode_pairs ps) = .ok (.Dict (foldInsert [] ps)) := by
  rw [decode]
  simp only [List.length_cons]
  simp only [parse, if_neg (by omega : ¬(100 = 105)), if_neg (by omega : ¬(100 = 108)),
    if_pos rfl]
  rw [(parse_encode_spec ((encode_pairs ps).length + 1)).2.2.2.2 ps [] h (by omega)]
  simp

theorem decode_dict_doc (ps : List (List Nat × Bencode)) (h : validPairs ps = true) :
    decode (100 :: (encode_pairs ps ++ [101])) = .ok (.Dict (foldInsert [] ps)) := by
  rw [decode]
  have hlen : (100 :: (encode_pairs ps ++ [101])).length + 1 =
      ((encode_pairs ps).length + 2) + 1 := by
    simp
  rw [hlen]
  simp only [parse, if_neg (by omega : ¬(100 = 105)), if_neg (by omega : ¬(100 = 108)),
    if_pos rfl]
  have heq : encode_pairs ps ++ [101] = encode_pairs ps ++ 101 :: ([] : List Nat) := rfl
  rw [heq, (parse_encode_spec ((encode_pairs ps).length + 2)).2.2.2.1 ps [] []
    h (by omega)]
  simp

/-! ### Error behavior of the integer production -/

theorem read_int_digits_err {b : Nat} (hb1 : is_digit b = false) (hb2 : b ≠ 101) :
    ∀ (pre acc rest : List Nat), pre.all is_digit = true →
      read_int_digits acc (pre ++ b :: rest) =
        .error (.msg ("invalid char " ++ charOfByte b ++ " when parsing integers")) := by
  intro pre
  induction pre with
  | nil =>
    intro acc rest _
    simp [read_int_digits, hb1, hb2]
  | cons d ds ih =>
    intro acc rest h
    simp only [List.all_cons, Bool.and_eq_true] at h
    simp only [List.cons_append, read_int_digits, h.1, if_true, List.append_eq]
    exact ih (acc ++ [d]) rest h.2

theorem parse_int_err_nondigit {b : Nat} (hb1 : is_digit b = false) (hb2 : b ≠ 101)
    (pre rest : List Nat) (hpre : pre.all is_digit = true) :
    parse_int (pre ++ b :: rest) =
      .error (.msg ("invalid char " ++ charOfByte b ++ " when parsing integers")) := by
  rw [parse_int, read_int_digits_err hb1 hb2 pre [] rest hpre]

theorem parse_int_err_overflow (ds rest : List Nat) (h1 : ds ≠ [])
    (h2 : ds.all is_digit = true) (h3 : u64Bound ≤ digitsVal ds) :
    parse_int (ds ++ 101 :: rest) =
      .error (.msg ("invalid integer value " ++ stringOfBytes ds)) := by
  rw [parse_int, read_int_digits_spec ds [] rest h2]
  cases ds with
  | nil => exact absurd rfl h1
  | cons d ds => simp [parseU64, h2, Nat.not_lt.2 h3]

theorem parse_int_err_empty (rest : List Nat) :
    parse_int (101 :: rest) =
      .error (.msg ("invalid integer value " ++ stringOfBytes [])) := by
  have h : read_int_digits [] (101 :: rest) = .ok ([], rest) := by
    simp [read_int_digits, is_digit]
  rw [parse_int, h]
  simp [parseU64]

theorem decode_int_head (body : List Nat) :
    decode (105 :: body) =
      match parse_int body with
      | .ok (v, _) => .ok v
      | .error e => .error e := by
  rw [decode]
  simp only [List.length_cons]
  simp only [parse, if_pos rfl]
  cases h : parse_int body with
  | ok p => simp
  | error e => simp

/-! ### Decidable structural equality for the model type -/

mutual
theorem structEq_iff : (a b : Bencode) → (structEq a b = true ↔ a = b)
  | .Text _, .Text _ => by simp [structEq]
  | .Text _, .Number _ => by simp [structEq]
  | .Text _, .List _ => by simp [structEq]
  | .Text _, .Dict _ => by simp [structEq]
  | .Number _, .Text _ => by simp [structEq]
  | .Number _, .Number _ => by simp [structEq]
  | .Number _, .List _ => by simp [structEq]
  | .Number _, .Dict _ => by simp [structEq]
  | .List _, .Text _ => by simp [structEq]
  | .List _, .Number _ => by simp [structEq]
  | .List xs, .List ys => by simp [structEq, structEqItems_iff xs ys]
  | .List _, .Dict _ => by simp [structEq]
  | .Dict _, .Text _ => by simp [structEq]
  | .Dict _, .Number _ => by simp [structEq]
  | .Dict _, .List _ => by simp [structEq]
  | .Dict ps, .Dict qs => by simp [structEq, structEqPairs_iff ps qs]

theorem structEqItems_iff : (a b : List Bencode) → (structEqItems a b = true ↔ a = b)
  | [], [] => by simp [structEqItems]
  | [], _ :: _ => by simp [structEqItems]
  | _ :: _, [] => by simp [structEqItems]
  | x :: xs, y :: ys => by
    simp [structEqItems, structEq_iff x y, structEqItems_iff xs ys]

theorem structEqPairs_iff :
    (a b : List (List Nat × Bencode)) → (structEqPairs a b = true ↔ a = b)
  | [], [] => by simp [structEqPairs]
  | [], _ :: _ => by simp [structEqPairs]
  | _ :: _, [] => by simp [structEqPairs]
  | (k1, v1) :: ps, (k2, v2) :: qs => by
    simp [structEqPairs, structEq_iff v1 v2, structEqPairs_iff ps qs, and_assoc]
end

instance : DecidableEq Bencode := fun a b =>
  decidable_of_iff (structEq a b = true) (structEq_iff a b)

instance : DecidableEq (Except ParseErr Bencode) := fun a b =>
  match a, b with
  | .ok x, .ok y => if h : x = y then .isTrue (by rw [h]) else .isFalse (by simp [h])
  | .error e, .error f => if h : e = f then .isTrue (by rw [h]) else .isFalse (by simp [h])
  | .ok _, .error _ => .isFalse (by simp)
  | .error _, .ok _ => .isFalse (by simp)

/-! ### Properties of the modelled `PartialEq` (`bencodeEq`) -/

theorem mapGet_of_nodup : ∀ d : List (List Nat × Bencode), nodupKeys d = true →
    ∀ (k : List Nat) (v : Bencode), (k, v) ∈ d → mapGet d k = some v := by
  intro d
  induction d with
  | nil => intro _ k v hmem; simp at hmem
  | cons p ps ih =>
    obtain ⟨k1, v1⟩ := p
    intro hnd k v hmem
    simp only [nodupKeys, Bool.and_eq_true] at hnd
    rw [mapGet_cons]
    rcases List.mem_cons.1 hmem with heq | hmem2
    · injection heq with hk hv
      rw [if_pos hk.symm, hv]
    · by_cases hk : k1 = k
      · subst hk
        have : k1 ∈ keysOf ps := by
          rw [keysOf]
          exact List.mem_map_of_mem Prod.fst hmem2
        exact absurd this ((keyFresh_iff ps k1).1 hnd.1)
      · rw [if_neg hk]
        exact ih hnd.2 k v hmem2

mutual
theorem bencodeEq_refl : (v : Bencode) → valid v = true → bencodeEq v v = true
  | .Text s, _ => by simp [bencodeEq, cv_self]
  | .Number n, _ => by simp [bencodeEq]
  | .List l, h => by
    have h1 : validItems l = true := by simpa [valid] using h
    simp only [bencodeEq, beq_self_eq_true, Bool.true_and]
    exact listItemsEq_refl l h1
  | .Dict d, h => by
    have h1 : validPairs d = true ∧ nodupKeys d = true := by
      simpa [valid, Bool.and_eq_true] using h
    simp only [bencodeEq, beq_self_eq_true, Bool.true_and]
    exact dictSubsetEq_of_lookup d d h1.1
      (fun p hp => mapGet_of_nodup d h1.2 p.1 p.2 (by simpa using hp))

theorem listItemsEq_refl : (l : List Bencode) → validItems l = true →
    listItemsEq l l = true
  | [], _ => by simp [listItemsEq]
  | v :: vs, h => by
    have h2 : valid v = true ∧ validItems vs = true := by
      simpa [validItems, Bool.and_eq_true] using h
    simp only [listItemsEq, Bool.and_eq_true]
    exact ⟨bencodeEq_refl v h2.1, listItemsEq_refl vs h2.2⟩

theorem dictSubsetEq_of_lookup : (ps qs : List (List Nat × Bencode)) →
    validPairs ps = true → (∀ p ∈ ps, mapGet qs p.1 = some p.2) →
    dictSubsetEq ps qs = true
  | [], _, _, _ => by simp [dictSubsetEq]
  | (k, v) :: ps, qs, h, hget => by
    have h2 : (k.length < u64Bound ∧ valid v = true) ∧ validPairs ps = true := by
      simpa [validPairs, Bool.and_eq_true] using h
    simp only [dictSubsetEq, Bool.and_eq_true]
    refine ⟨?_, dictSubsetEq_of_lookup ps qs h2.2
      (fun p hp => hget p (List.mem_cons_of_mem _ hp))⟩
    have hk := hget (k, v) (List.mem_cons_self _ _)
    simp only at hk
    rw [hk]
    exact bencodeEq_refl v h2.1.2
end

/-- `Perm` preserves the nodup-keys invariant. -/
theorem nodupKeys_perm {ps qs : List (List Nat × Bencode)} (hperm : ps.Perm qs)
    (h : nodupKeys ps = true) : nodupKeys qs = true := by
  rw [nodupKeys_iff]
  exact ((hperm.map Prod.fst).nodup_iff).1 ((nodupKeys_iff ps).1 h)

/-- Two dicts holding the same entries in possibly different stored orders
compare equal under the modelled `IndexMap` equality. -/
theorem bencodeEq_dict_perm (ps qs : List (List Nat × Bencode))
    (h : valid (.Dict ps) = true) (hperm : ps.Perm qs) :
    bencodeEq (.Dict ps) (.Dict qs) = true := by
  have h1 : validPairs ps = true ∧ nodupKeys ps = true := by
    simpa [valid, Bool.and_eq_true] using h
  have hnq : nodupKeys qs = true := nodupKeys_perm hperm h1.2
  simp only [bencodeEq, Bool.and_eq_true]
  refine ⟨by simp [hperm.length_eq], ?_⟩
  apply dictSubsetEq_of_lookup ps qs h1.1
  intro p hp
  exact mapGet_of_nodup qs hnq p.1 p.2 (by simpa using hperm.subset hp)

/-- `encode` is injective on representable values. -/
theorem encode_inj {v1 v2 : Bencode} (h1 : valid v1 = true) (h2 : valid v2 = true)
    (h : encode v1 = encode v2) : v1 = v2 := by
  have e1 := decode_encode v1 h1
  have e2 := decode_encode v2 h2
  rw [h, e2] at e1
  injection e1 with he
  exact he.symm

/-! ### Arbitrarily deep documents -/

theorem encode_nestedList : ∀ d : Nat,
    encode (nestedList d) = List.replicate (d + 1) 108 ++ List.replicate (d + 1) 101 := by
  intro d
  induction d with
  | zero => rfl
  | succ d ih =>
    have hstep : encode (nestedList (d + 1)) = 108 :: (encode (nestedList d) ++ [101]) := by
      simp [nestedList, encode, encode_items]
    rw [hstep, ih]
    rw [List.replicate_succ]
    have h101 : List.replicate (d + 1 + 1) 101 = List.replicate (d + 1) 101 ++ [101] :=
      List.replicate_succ' ..
    rw [h101]
    simp [List.replicate_succ, List.append_assoc]

theorem valid_nestedList : ∀ d : Nat, valid (nestedList d) = true := by
  intro d
  induction d with
  | zero => rfl
  | succ d ih => simp [nestedList, valid, validItems, ih]

theorem parse_int_ok_digits (ds rest : List Nat) (h1 : ds ≠ [])
    (h2 : ds.all is_digit = true) (h3 : digitsVal ds < u64Bound) :
    parse_int (ds ++ 101 :: rest) = .ok (.Number (digitsVal ds), rest) := by
  rw [parse_int, read_int_digits_spec ds [] rest h2]
  cases ds with
  | nil => exact absurd rfl h1
  | cons d ds => simp [parseU64, h2, h3]

/-! ### The claims -/

/-- Claim C1: for every Value constructible from the four variants (arbitrary
byte Text, unsigned 64-bit Number, List, Dict with insertion-ordered distinct
keys, nested to any finite depth — exactly what `valid` captures),
`decode (encode v)` succeeds and returns a Value structurally equal to `v`. -/
theorem C1_roundtrip (v : Bencode) (h : valid v = true) : decode (encode v) = .ok v :=
  decode_encode v h

theorem C1_roundtrip_witness :
    valid (.Dict [([97], .Number 5), ([98, 99], .List [.Text [0, 255], .Dict []])]) = true ∧
    decode (encode (.Dict [([97], .Number 5),
        ([98, 99], .List [.Text [0, 255], .Dict []])])) =
      .ok (.Dict [([97], .Number 5), ([98, 99], .List [.Text [0, 255], .Dict []])]) :=
  ⟨by decide, C1_roundtrip _ (by decide)⟩

/-- Claim C2 counterexample: on the spec's own example `5:ab` (bytes
`[53, 58, 97, 98]`, declared length 5, only 2 payload bytes available) the
code returns `Ok(Text "ab")` — a successful shorter-than-declared payload —
not a truncated-input error, so the claim as stated is false. -/
theorem C2_truncated_counterexample :
    decode [53, 58, 97, 98] = .ok (.Text [97, 98]) := by decide

/-- Claim C2 as amended: for every input whose string production declares a
payload length exceeding the bytes remaining in the buffer, `decode`
*succeeds*, returning a Text value holding exactly the remaining bytes (a
shorter-than-declared payload); no truncated-input error exists in the
string path (`Iterator::take` simply stops at end of input). -/
theorem C2_short_payload (len : Nat) (s : List Nat) (h1 : s.length < len)
    (h2 : len < u64Bound) :
    decode (decDigits len ++ 58 :: s) = .ok (.Text s) := by
  obtain ⟨d, ds, hd, hdig⟩ := decDigits_head len
  have hshape : decDigits len ++ 58 :: s = d :: (ds ++ 58 :: s) := by simp [hd]
  rw [hshape, decode]
  simp only [List.length_cons]
  simp only [parse, if_neg (digit_ne_105 hdig), if_neg (digit_ne_108 hdig),
    if_neg (digit_ne_100 hdig), hdig, if_true]
  rw [parse_str_short hd h2 (Nat.le_of_lt h1)]

theorem C2_short_payload_witness :
    ([97, 98] : List Nat).length < 5 ∧ 5 < u64Bound ∧
    decode (decDigits 5 ++ 58 :: [97, 98]) = .ok (.Text [97, 98]) :=
  ⟨by decide, by decide, C2_short_payload 5 [97, 98] (by decide) (by decide)⟩

/-- Claim C3 counterexample: on the claim's own examples `l4:spam` and
`d3:cow3:moo` (end of input before the closing `e`) the code silently closes
the container and succeeds, instead of returning a truncated-input error, so
the claim as stated is false. -/
theorem C3_truncated_counterexample :
    decode [108, 52, 58, 115, 112, 97, 109] = .ok (.List [.Text [115, 112, 97, 109]]) ∧
    decode [100, 51, 58, 99, 111, 119, 51, 58, 109, 111, 111] =
      .ok (.Dict [([99, 111, 119], .Text [109, 111, 111])]) := by
  constructor <;> decide

/-- Claim C3 as amended: when a list or dict production reaches end-of-input
before its closing `e`, `decode` *succeeds*, silently closing the container
and returning the elements (resp. the inserted entries) read so far — the
`while let` loops simply fall through at end of input. -/
theorem C3_eof_silently_closes :
    (∀ l : List Bencode, validItems l = true →
      decode (108 :: encode_items l) = .ok (.List l)) ∧
    (∀ ps : List (List Nat × Bencode), validPairs ps = true →
      decode (100 :: encode_pairs ps) = .ok (.Dict (foldInsert [] ps))) :=
  ⟨decode_unclosed_list, decode_unclosed_dict⟩

theorem C3_eof_witness :
    validItems [Bencode.Text [115, 112, 97, 109]] = true ∧
    validPairs [([99, 111, 119], Bencode.Text [109, 111, 111])] = true ∧
    decode (108 :: encode_items [Bencode.Text [115, 112, 97, 109]]) =
      .ok (.List [.Text [115, 112, 97, 109]]) ∧
    decode (100 :: encode_pairs [([99, 111, 119], Bencode.Text [109, 111, 111])]) =
      .ok (.Dict (foldInsert [] [([99, 111, 119], Bencode.Text [109, 111, 111])])) :=
  ⟨by decide, by decide, C3_eof_silently_closes.1 _ (by decide),
    C3_eof_silently_closes.2 _ (by decide)⟩

/-- Claim C4: decoding a well-formed dict document whose entry sequence `ps`
mentions the key `k` more than once yields `Dict (foldInsert [] ps)`, in
which `k` has exactly one entry, the stored key order is the sequence of
first occurrences (`dedupFirst`), and the value under `k` is that of its
last occurrence (`lastAssoc`). -/
theorem C4_dup_keys (ps : List (List Nat × Bencode)) (k : List Nat)
    (hv : validPairs ps = true)
    (hdup : 2 ≤ ps.countP (fun p => decide (p.1 = k))) :
    decode (100 :: (encode_pairs ps ++ [101])) = .ok (.Dict (foldInsert [] ps)) ∧
    (foldInsert [] ps).countP (fun p => decide (p.1 = k)) = 1 ∧
    keysOf (foldInsert [] ps) = dedupFirst [] (ps.map Prod.fst) ∧
    mapGet (foldInsert [] ps) k = lastAssoc ps k := by
  have hkeys : keysOf (foldInsert [] ps) = dedupFirst [] (ps.map Prod.fst) := by
    have := keysOf_foldInsert ps []
    simpa [keysOf] using this
  have hnodup : (keysOf (foldInsert [] ps)).Nodup := by
    rw [hkeys]
    exact nodup_dedupFirst _ _
  have hmemk : k ∈ keysOf (foldInsert [] ps) := by
    rw [hkeys]
    have hpos : 0 < ps.countP (fun p => decide (p.1 = k)) := by omega
    obtain ⟨p, hp, hpk⟩ := List.countP_pos_iff.1 hpos
    have hk : p.1 = k := of_decide_eq_true hpk
    rw [mem_dedupFirst]
    exact ⟨hk ▸ List.mem_map_of_mem Prod.fst hp, by simp⟩
  refine ⟨decode_dict_doc ps hv, ?_, hkeys, ?_⟩
  · rw [countP_keys (foldInsert [] ps) hnodup k, if_pos hmemk]
  · rw [mapGet_foldInsert ps [] k]
    cases hl : lastAssoc ps k with
    | some w => rfl
    | none => rw [mapGet_nil]

theorem C4_dup_keys_witness :
    validPairs [([97], Bencode.Number 1), ([97], Bencode.Number 2)] = true ∧
    2 ≤ ([([97], Bencode.Number 1), ([97], Bencode.Number 2)]).countP
        (fun p => decide (p.1 = [97])) ∧
    decode (100 :: (encode_pairs [([97], Bencode.Number 1), ([97], Bencode.Number 2)]
        ++ [101])) =
      .ok (.Dict (foldInsert [] [([97], Bencode.Number 1), ([97], Bencode.Number 2)])) ∧
    (foldInsert [] [([97], Bencode.Number 1), ([97], Bencode.Number 2)]).countP
        (fun p => decide (p.1 = [97])) = 1 ∧
    mapGet (foldInsert [] [([97], Bencode.Number 1), ([97], Bencode.Number 2)]) [97] =
      lastAssoc [([97], Bencode.Number 1), ([97], Bencode.Number 2)] [97] :=
  ⟨by decide, by decide,
    (C4_dup_keys _ [97] (by decide) (by decide)).1,
    (C4_dup_keys _ [97] (by decide) (by decide)).2.1,
    (C4_dup_keys _ [97] (by decide) (by decide)).2.2.2⟩

/-- Claim C5 counterexample: two Dict values holding the same key/value pairs
in different stored orders *do* compare equal under the code's `PartialEq`
(the `IndexMap` equality is order-independent), even though their stored
contents differ, so the claim's "including the insertion order of dictionary
entries" is false. -/
theorem C5_order_counterexample :
    bencodeEq (.Dict [([97], .Number 1), ([98], .Number 2)])
        (.Dict [([98], .Number 2), ([97], .Number 1)]) = true ∧
    (Bencode.Dict [([97], .Number 1), ([98], .Number 2)]) ≠
      (.Dict [([98], .Number 2), ([97], .Number 1)]) := by
  constructor <;> decide

/-- Claim C5 as amended: the code's equality is structural for Text (bytewise)
and Number, but Dict contents are compared as order-independent maps: two
Dicts holding the same key/value pairs in different stored orders compare
*equal*. -/
theorem C5_equality_characterization :
    (∀ s t : List Nat, (bencodeEq (.Text s) (.Text t) = true) ↔ s = t) ∧
    (∀ n m : Nat, (bencodeEq (.Number n) (.Number m) = true) ↔ n = m) ∧
    (∀ ps qs : List (List Nat × Bencode), valid (.Dict ps) = true → ps.Perm qs →
      bencodeEq (.Dict ps) (.Dict qs) = true) := by
  refine ⟨?_, ?_, bencodeEq_dict_perm⟩
  · intro s t
    simp [bencodeEq, compare_vectors_iff]
  · intro n m
    simp [bencodeEq]

theorem C5_equality_witness :
    ((bencodeEq (.Text [0, 255]) (.Text [0, 255]) = true) ↔
      ([0, 255] : List Nat) = [0, 255]) ∧
    ((bencodeEq (.Number 3) (.Number 3) = true) ↔ 3 = 3) ∧
    bencodeEq (.Dict [([97], .Number 1), ([98], .Number 2)])
      (.Dict [([98], .Number 2), ([97], .Number 1)]) = true :=
  ⟨C5_equality_characterization.1 [0, 255] [0, 255],
    C5_equality_characterization.2.1 3 3,
    C5_equality_characterization.2.2 _ _ (by decide) (List.Perm.swap _ _ _)⟩

/-- Claim C6 counterexample: two Values that compare equal under the code's
`PartialEq` (order-independent for dicts) can encode to different byte
sequences, so `encode` is not deterministic with respect to that equality. -/
theorem C6_partialeq_counterexample :
    bencodeEq (.Dict [([99], .Number 3), ([100], .Number 4)])
        (.Dict [([100], .Number 4), ([99], .Number 3)]) = true ∧
    encode (.Dict [([99], .Number 3), ([100], .Number 4)]) ≠
      encode (.Dict [([100], .Number 4), ([99], .Number 3)]) := by
  constructor <;> decide

/-- Claim C6 as amended: `encode` is deterministic with respect to
*structural* equality — on representable values, `encode v1 = encode v2`
holds exactly when `v1 = v2` (encode is a function and is injective) — but
two Values that merely compare equal under the code's `PartialEq`, which
ignores dict stored order, may encode to different byte sequences. -/
theorem C6_encode_deterministic (v1 v2 : Bencode) (h1 : valid v1 = true)
    (h2 : valid v2 = true) : encode v1 = encode v2 ↔ v1 = v2 :=
  ⟨encode_inj h1 h2, fun h => by rw [h]⟩

theorem C6_encode_deterministic_witness :
    valid (.Number 3) = true ∧ valid (.Number 4) = true ∧
    (encode (.Number 3) = encode (.Number 4) ↔ (Bencode.Number 3) = .Number 4) :=
  ⟨by decide, by decide, C6_encode_deterministic (.Number 3) (.Number 4)
    (by decide) (by decide)⟩

/-- Claim C7: the integer production errors on an empty digit sequence
(`ie`), on a non-digit byte before the `e`, and on `u64` overflow; otherwise
it returns the digits parsed as an unsigned 64-bit Integer. -/
theorem C7_integer_parse :
    (∀ rest : List Nat, decode (105 :: 101 :: rest) =
      .error (.msg ("invalid integer value " ++ stringOfBytes []))) ∧
    (∀ (pre : List Nat) (b : Nat) (rest : List Nat), pre.all is_digit = true →
      is_digit b = false → b ≠ 101 →
      decode (105 :: (pre ++ b :: rest)) =
        .error (.msg ("invalid char " ++ charOfByte b ++ " when parsing integers"))) ∧
    (∀ ds rest : List Nat, ds ≠ [] → ds.all is_digit = true →
      u64Bound ≤ digitsVal ds →
      decode (105 :: (ds ++ 101 :: rest)) =
        .error (.msg ("invalid integer value " ++ stringOfBytes ds))) ∧
    (∀ ds rest : List Nat, ds ≠ [] → ds.all is_digit = true →
      digitsVal ds < u64Bound →
      decode (105 :: (ds ++ 101 :: rest)) = .ok (.Number (digitsVal ds))) := by
  refine ⟨?_, ?_, ?_, ?_⟩
  · intro rest
    rw [decode_int_head, parse_int_err_empty]
  · intro pre b rest h1 h2 h3
    rw [decode_int_head, parse_int_err_nondigit h2 h3 pre rest h1]
  · intro ds rest h1 h2 h3
    rw [decode_int_head, parse_int_err_overflow ds rest h1 h2 h3]
  · intro ds rest h1 h2 h3
    rw [decode_int_head, parse_int_ok_digits ds rest h1 h2 h3]

theorem C7_integer_parse_witness :
    decode [105, 101] = .error (.msg ("invalid integer value " ++ stringOfBytes [])) ∧
    decode [105, 52, 120, 101] =
      .error (.msg ("invalid char " ++ charOfByte 120 ++ " when parsing integers")) ∧
    decode (105 :: ([49, 56, 52, 52, 54, 55, 52, 52, 48, 55, 51, 55, 48, 57, 53, 53,
        49, 54, 49, 54] ++ 101 :: [])) =
      .error (.msg ("invalid integer value " ++ stringOfBytes [49, 56, 52, 52, 54, 55,
        52, 52, 48, 55, 51, 55, 48, 57, 53, 53, 49, 54, 49, 54])) ∧
    decode [105, 52, 50, 101] = .ok (.Number 42) :=
  ⟨C7_integer_parse.1 [],
    C7_integer_parse.2.1 [52] 120 [] (by decide) (by decide) (by decide),
    C7_integer_parse.2.2.1 _ [] (by decide) (by decide) (by decide),
    C7_integer_parse.2.2.2 [52, 50] [] (by decide) (by decide) (by decide)⟩

/-- Documents of every nesting depth decode successfully: the document of
`d + 1` nested lists (`d + 1` bytes `l` followed by `d + 1` bytes `e`)
decodes to the corresponding value, for every `d`. -/
theorem decode_nested_any_depth : ∀ d : Nat,
    decode (List.replicate (d + 1) 108 ++ List.replicate (d + 1) 101) =
      .ok (nestedList d) := by
  intro d
  rw [← encode_nestedList d]
  exact decode_encode (nestedList d) (valid_nestedList d)

/-- Claim C8 counterexample: a document of 2001 nested lists — deeper than
the spec's recommended default guard of "a few hundred to a few thousand"
levels and deeper than any depth the grammar would need — decodes
successfully instead of failing with a depth-limit error; by
`decode_nested_any_depth` the same holds at every depth, so no configured
maximum exists. -/
theorem C8_depth_counterexample :
    decode (List.replicate 2001 108 ++ List.replicate 2001 101) =
      .ok (nestedList 2000) :=
  decode_nested_any_depth 2000

/-- Claim C8 as amended: `decode` enforces no maximum nesting depth: a
document of any nesting depth decodes successfully (the recursion of the
source is bounded only by the input length; any stack exhaustion is a
resource effect outside this model). -/
theorem C8_no_depth_guard : ∀ d : Nat,
    decode (encode (nestedList d)) = .ok (nestedList d) ∧
      (encode (nestedList d)).length = 2 * (d + 1) := by
  intro d
  refine ⟨decode_encode _ (valid_nestedList d), ?_⟩
  rw [encode_nestedList d]
  simp [List.length_append, List.length_replicate]
  omega

/-- Claim C9: `decode` parses exactly one top-level value and ignores
trailing bytes: appending any byte sequence after a complete encoded value
leaves the result unchanged and raises no error. -/
theorem C9_trailing_bytes (v : Bencode) (extra : List Nat) (h : valid v = true) :
    decode (encode v ++ extra) = .ok v ∧ decode (encode v) = .ok v :=
  ⟨decode_encode_append v extra h, decode_encode v h⟩

theorem C9_trailing_bytes_witness :
    valid (.List [.Number 1]) = true ∧
    decode (encode (.List [.Number 1]) ++ [120, 121]) = .ok (.List [.Number 1]) ∧
    decode (encode (.List [.Number 1])) = .ok (.List [.Number 1]) :=
  ⟨by decide, (C9_trailing_bytes (.List [.Number 1]) [120, 121] (by decide)).1,
    (C9_trailing_bytes (.List [.Number 1]) [120, 121] (by decide)).2⟩

/-- Claim C10: if the input ends while reading an integer production's digits
before any terminating `e` (for example `i42`), `decode` does not report
truncation: it succeeds with the Integer parsed from the digits read so far,
provided at least one digit was read and the value fits in `u64`. -/
theorem C10_eof_integer (ds : List Nat) (h1 : ds ≠ []) (h2 : ds.all is_digit = true)
    (h3 : digitsVal ds < u64Bound) :
    decode (105 :: ds) = .ok (.Number (digitsVal ds)) := by
  rw [decode_int_head, parse_int_eof h1 h2 h3]

theorem C10_eof_integer_witness :
    ([52, 50] : List Nat) ≠ [] ∧ ([52, 50] : List Nat).all is_digit = true ∧
    digitsVal [52, 50] < u64Bound ∧
    decode [105, 52, 50] = .ok (.Number 42) :=
  ⟨by decide, by decide, by decide,
    C10_eof_integer [52, 50] (by decide) (by decide) (by decide)⟩

/-! ### The out-of-fuel branch of the model is unreachable from `decode`:
every parsing step consumes at least one byte per unit of fuel, so fuel
`input.length + 1` never runs out.  This justifies presenting the fueled
functions as a model of the source's unbounded recursion. -/

theorem read_str_len_consume : ∀ (input acc out rest : List Nat),
    read_str_len acc input = .ok (out, rest) → rest.length ≤ input.length := by
  intro input
  induction input with
  | nil =>
    intro acc out rest h
    rw [read_str_len] at h
    injection h with h
    injection h with _ h2
    simp [← h2]
  | cons b tail ih =>
    intro acc out rest h
    rw [read_str_len] at h
    by_cases hd : is_digit b = true
    · rw [if_pos hd] at h
      exact le_trans (ih (acc ++ [b]) out rest h) (by simp)
    · rw [if_neg hd] at h
      by_cases hc : b = 58
      · simp only [hc, if_pos rfl] at h
        injection h with h
        injection h with _ h2
        simp [← h2]
      · rw [if_neg (by simpa using hc)] at h
        cases h

theorem read_int_digits_consume : ∀ (input acc out rest : List Nat),
    read_int_digits acc input = .ok (out, rest) → rest.length ≤ input.length := by
  intro input
  induction input with
  | nil =>
    intro acc out rest h
    rw [read_int_digits] at h
    injection h with h
    injection h with _ h2
    simp [← h2]
  | cons b tail ih =>
    intro acc out rest h
    rw [read_int_digits] at h
    by_cases hd : is_digit b = true
    · rw [if_pos hd] at h
      exact le_trans (ih (acc ++ [b]) out rest h) (by simp)
    · rw [if_neg hd] at h
      by_cases hc : b = 101
      · simp only [hc, if_pos rfl] at h
        injection h with h
        injection h with _ h2
        simp [← h2]
      · rw [if_neg hc] at h
        cases h

theorem parse_str_consume {c : Nat} {input : List Nat} {v : Bencode} {rest : List Nat}
    (h : parse_str c input = .ok (v, rest)) : rest.length ≤ input.length := by
  rw [parse_str] at h
  cases hr : read_str_len [c] input with
  | error e => rw [hr] at h; cases h
  | ok p =>
    obtain ⟨s, mid⟩ := p
    simp only [hr] at h
    cases hp : parseU64 s with
    | none => rw [hp] at h; cases h
    | some n =>
      rw [hp] at h
      injection h with h
      injection h with _ h2
      have hmid := read_str_len_consume input [c] s mid hr
      rw [← h2]
      simp only [List.length_drop]
      omega

theorem parse_int_consume {input : List Nat} {v : Bencode} {rest : List Nat}
    (h : parse_int input = .ok (v, rest)) : rest.length ≤ input.length := by
  rw [parse_int] at h
  cases hr : read_int_digits [] input with
  | error e => rw [hr] at h; cases h
  | ok p =>
    obtain ⟨s, mid⟩ := p
    simp only [hr] at h
    cases hp : parseU64 s with
    | none => rw [hp] at h; cases h
    | some n =>
      rw [hp] at h
      injection h with h
      injection h with _ h2
      rw [← h2]
      exact read_int_digits_consume input [] s mid hr

theorem read_str_len_nf : ∀ (input acc : List Nat),
    read_str_len acc input ≠ .error .fuelOut := by
  intro input
  induction input with
  | nil =>
    intro acc h
    rw [read_str_len] at h
    cases h
  | cons b tail ih =>
    intro acc h
    rw [read_str_len] at h
    by_cases hd : is_digit b = true
    · rw [if_pos hd] at h
      exact ih (acc ++ [b]) h
    · rw [if_neg hd] at h
      by_cases hc : b = 58
      · simp only [hc, if_pos rfl] at h
        cases h
      · rw [if_neg hc] at h
        injection h with h
        cases h

theorem read_int_digits_nf : ∀ (input acc : List Nat),
    read_int_digits acc input ≠ .error .fuelOut := by
  intro input
  induction input with
  | nil =>
    intro acc h
    rw [read_int_digits] at h
    cases h
  | cons b tail ih =>
    intro acc h
    rw [read_int_digits] at h
    by_cases hd : is_digit b = true
    · rw [if_pos hd] at h
      exact ih (acc ++ [b]) h
    · rw [if_neg hd] at h
      by_cases hc : b = 101
      · simp only [hc, if_pos rfl] at h
        cases h
      · rw [if_neg hc] at h
        injection h with h
        cases h

theorem parse_str_nf (c : Nat) (input : List Nat) :
    parse_str c input ≠ .error .fuelOut := by
  intro h
  rw [parse_str] at h
  cases hr : read_str_len [c] input with
  | error e =>
    rw [hr] at h
    injection h with h
    rw [h] at hr
    exact read_str_len_nf input [c] hr
  | ok p =>
    obtain ⟨s, mid⟩ := p
    simp only [hr] at h
    cases hp : parseU64 s with
    | none =>
      rw [hp] at h
      injection h with h
      cases h
    | some n =>
      rw [hp] at h
      cases h

theorem parse_int_nf (input : List Nat) : parse_int input ≠ .error .fuelOut := by
  intro h
  rw [parse_int] at h
  cases hr : read_int_digits [] input with
  | error e =>
    rw [hr] at h
    injection h with h
    rw [h] at hr
    exact read_int_digits_nf input [] hr
  | ok p =>
    obtain ⟨s, mid⟩ := p
    simp only [hr] at h
    cases hp : parseU64 s with
    | none =>
      rw [hp] at h
      injection h with h
      cases h
    | some n =>
      rw [hp] at h
      cases h

theorem parse_nf_consume : ∀ fuel : Nat,
    (∀ input : List Nat, input.length < fuel →
      parse fuel input ≠ .error .fuelOut ∧
      ∀ v rest, parse fuel input = .ok (v, rest) → rest.length ≤ input.length) ∧
    (∀ (acc : List Bencode) (input : List Nat), input.length < fuel →
      parse_list fuel acc input ≠ .error .fuelOut ∧
      ∀ v rest, parse_list fuel acc input = .ok (v, rest) →
        rest.length ≤ input.length) ∧
    (∀ (m : List (List Nat × Bencode)) (input : List Nat), input.length < fuel →
      parse_dict fuel m input ≠ .error .fuelOut ∧
      ∀ v rest, parse_dict fuel m input = .ok (v, rest) →
        rest.length ≤ input.length) := by
  intro fuel
  induction fuel with
  | zero => refine ⟨?_, ?_, ?_⟩ <;> intros <;> omega
  | succ fuel ih =>
    obtain ⟨ihp, ihl, ihd⟩ := ih
    refine ⟨?_, ?_, ?_⟩
    · intro input hlen
      cases input with
      | nil =>
        constructor
        · intro h
          simp only [parse] at h
          injection h with h
          cases h
        · intro v rest h
          simp only [parse] at h
          cases h
      | cons b tail =>
        have htail : tail.length < fuel := by
          simp only [List.length_cons] at hlen
          omega
        by_cases h105 : b = 105
        · subst h105
          constructor
          · intro h
            simp only [parse, if_pos rfl] at h
            exact parse_int_nf tail h
          · intro v rest h
            simp only [parse, if_pos rfl] at h
            have := parse_int_consume h
            simp only [List.length_cons]
            omega
        · by_cases h108 : b = 108
          · subst h108
            constructor
            · intro h
              simp only [parse, if_neg (by omega : ¬(108 = 105)), if_pos rfl] at h
              exact (ihl [] tail htail).1 h
            · intro v rest h
              simp only [parse, if_neg (by omega : ¬(108 = 105)), if_pos rfl] at h
              have := (ihl [] tail htail).2 v rest h
              simp only [List.length_cons]
              omega
          · by_cases h100 : b = 100
            · subst h100
              constructor
              · intro h
                simp only [parse, if_neg (by omega : ¬(100 = 105)),
                  if_neg (by omega : ¬(100 = 108)), if_pos rfl] at h
                exact (ihd [] tail htail).1 h
              · intro v rest h
                simp only [parse, if_neg (by omega : ¬(100 = 105)),
                  if_neg (by omega : ¬(100 = 108)), if_pos rfl] at h
                have := (ihd [] tail htail).2 v rest h
                simp only [List.length_cons]
                omega
            · by_cases hdig : is_digit b = true
              · constructor
                · intro h
                  simp only [parse, if_neg h105, if_neg h108, if_neg h100, hdig,
                    if_true] at h
                  exact parse_str_nf b tail h
                · intro v rest h
                  simp only [parse, if_neg h105, if_neg h108, if_neg h100, hdig,
                    if_true] at h
                  have := parse_str_consume h
                  simp only [List.length_cons]
                  omega
              · have hdigf : is_digit b = false := Bool.eq_false_iff.2 hdig
                constructor
                · intro h
                  simp only [parse, if_neg h105, if_neg h108, if_neg h100, hdigf,
                    Bool.false_eq_true, if_false] at h
                  injection h with h
                  cases h
                · intro v rest h
                  simp only [parse, if_neg h105, if_neg h108, if_neg h100, hdigf,
                    Bool.false_eq_true, if_false] at h
                  cases h
    · intro acc input hlen
      cases input with
      | nil =>
        constructor
        · intro h
          simp only [parse_list] at h
          cases h
        · intro v rest h
          simp only [parse_list] at h
          injection h with h1
          injection h1 with h1a h2
          simp [← h2]
      | cons b tail =>
        have htail : tail.length < fuel := by
          simp only [List.length_cons] at hlen
          omega
        by_cases h108 : b = 108
        · subst h108
          cases hsub : parse_list fuel [] tail with
          | error e =>
            constructor
            · intro h
              simp only [parse_list, if_pos rfl, hsub] at h
              injection h with h
              exact (ihl [] tail htail).1 (h ▸ hsub)
            · intro v rest h
              simp only [parse_list, if_pos rfl, hsub] at h
              cases h
          | ok p =>
            obtain ⟨v1, rest1⟩ := p
            have hrest1 : rest1.length ≤ tail.length := (ihl [] tail htail).2 v1 rest1 hsub
            have hlt1 : rest1.length < fuel := by omega
            constructor
            · intro h
              simp only [parse_list, if_pos rfl, hsub] at h
              exact (ihl (acc ++ [v1]) rest1 hlt1).1 h
            · intro v rest h
              simp only [parse_list, if_pos rfl, hsub] at h
              have := (ihl (acc ++ [v1]) rest1 hlt1).2 v rest h
              simp only [List.length_cons]
              omega
        · by_cases h100 : b = 100
          · subst h100
            cases hsub : parse_dict fuel [] tail with
            | error e =>
              constructor
              · intro h
                simp only [parse_list, if_neg (by omega : ¬(100 = 108)), if_pos rfl,
                  hsub] at h
                injection h with h
                exact (ihd [] tail htail).1 (h ▸ hsub)
              · intro v rest h
                simp only [parse_list, if_neg (by omega : ¬(100 = 108)), if_pos rfl,
                  hsub] at h
                cases h
            | ok p =>
              obtain ⟨v1, rest1⟩ := p
              have hrest1 : rest1.length ≤ tail.length :=
                (ihd [] tail htail).2 v1 rest1 hsub
              have hlt1 : rest1.length < fuel := by omega
              constructor
              · intro h
                simp only [parse_list, if_neg (by omega : ¬(100 = 108)), if_pos rfl,
                  hsub] at h
                exact (ihl (acc ++ [v1]) rest1 hlt1).1 h
              · intro v rest h
                simp only [parse_list, if_neg (by omega : ¬(100 = 108)), if_pos rfl,
                  hsub] at h
                have := (ihl (acc ++ [v1]) rest1 hlt1).2 v rest h
                simp only [List.length_cons]
                omega
          · by_cases h105 : b = 105
            · subst h105
              cases hsub : parse_int tail with
              | error e =>
                constructor
                · intro h
                  simp only [parse_list, if_neg (by omega : ¬(105 = 108)),
                    if_neg (by omega : ¬(105 = 100)), if_pos rfl, hsub] at h
                  injection h with h
                  exact parse_int_nf tail (h ▸ hsub)
                · intro v rest h
                  simp only [parse_list, if_neg (by omega : ¬(105 = 108)),
                    if_neg (by omega : ¬(105 = 100)), if_pos rfl, hsub] at h
                  cases h
              | ok p =>
                obtain ⟨v1, rest1⟩ := p
                have hrest1 : rest1.length ≤ tail.length := parse_int_consume hsub
                have hlt1 : rest1.length < fuel := by omega
                constructor
                · intro h
                  simp only [parse_list, if_neg (by omega : ¬(105 = 108)),
                    if_neg (by omega : ¬(105 = 100)), if_pos rfl, hsub] at h
                  exact (ihl (acc ++ [v1]) rest1 hlt1).1 h
                · intro v rest h
                  simp only [parse_list, if_neg (by omega : ¬(105 = 108)),
                    if_neg (by omega : ¬(105 = 100)), if_pos rfl, hsub] at h
                  have := (ihl (acc ++ [v1]) rest1 hlt1).2 v rest h
                  simp only [List.length_cons]
                  omega
            · by_cases hdig : is_digit b = true
              · cases hsub : parse_str b tail with
                | error e =>
                  constructor
                  · intro h
                    simp only [parse_list, if_neg h108, if_neg h100, if_neg h105,
                      hdig, if_true, hsub] at h
                    injection h with h
                    exact parse_str_nf b tail (h ▸ hsub)
                  · intro v rest h
                    simp only [parse_list, if_neg h108, if_neg h100, if_neg h105,
                      hdig, if_true, hsub] at h
                    cases h
                | ok p =>
                  obtain ⟨v1, rest1⟩ := p
                  have hrest1 : rest1.length ≤ tail.length := parse_str_consume hsub
                  have hlt1 : rest1.length < fuel := by omega
                  constructor
                  · intro h
                    simp only [parse_list, if_neg h108, if_neg h100, if_neg h105,
                      hdig, if_true, hsub] at h
                    exact (ihl (acc ++ [v1]) rest1 hlt1).1 h
                  · intro v rest h
                    simp only [parse_list, if_neg h108, if_neg h100, if_neg h105,
                      hdig, if_true, hsub] at h
                    have := (ihl (acc ++ [v1]) rest1 hlt1).2 v rest h
                    simp only [List.length_cons]
                    omega
              · have hdigf : is_digit b = false := Bool.eq_false_iff.2 hdig
                by_cases h101 : b = 101
                · subst h101
                  constructor
                  · intro h
                    simp only [parse_list, if_neg h108, if_neg h100, if_neg h105,
                      hdigf, Bool.false_eq_true, if_false, if_pos rfl] at h
                    cases h
                  · intro v rest h
                    simp only [parse_list, if_neg h108, if_neg h100, if_neg h105,
                      hdigf, Bool.false_eq_true, if_false, if_pos rfl] at h
                    injection h with h1
                    injection h1 with h1a h2
                    simp [← h2]
                · constructor
                  · intro h
                    simp only [parse_list, if_neg h108, if_neg h100, if_neg h105,
                      hdigf, Bool.false_eq_true, if_false, if_neg h101] at h
                    injection h with h
                    cases h
                  · intro v rest h
                    simp only [parse_list, if_neg h108, if_neg h100, if_neg h105,
                      hdigf, Bool.false_eq_true, if_false, if_neg h101] at h
                    cases h
    · intro m input hlen
      cases input with
      | nil =>
        constructor
        · intro h
          simp only [parse_dict] at h
          cases h
        · intro v rest h
          simp only [parse_dict] at h
          injection h with h1
          injection h1 with h1a h2
          simp [← h2]
      | cons b tail =>
        have htail : tail.length < fuel := by
          simp only [List.length_cons] at hlen
          omega
        by_cases hdig : is_digit b = true
        · cases hsub : parse_str b tail with
          | error e =>
            constructor
            · intro h
              simp only [parse_dict, hdig, if_true, hsub] at h
              injection h with h
              exact parse_str_nf b tail (h ▸ hsub)
            · intro v rest h
              simp only [parse_dict, hdig, if_true, hsub] at h
              cases h
          | ok p =>
            obtain ⟨v1, rest1⟩ := p
            have hrest1 : rest1.length ≤ tail.length := parse_str_consume hsub
            have hlt1 : rest1.length < fuel := by omega
            cases v1 with
            | Text key =>
              cases hsub2 : parse fuel rest1 with
              | error e =>
                constructor
                · intro h
                  simp only [parse_dict, hdig, if_true, hsub, hsub2] at h
                  injection h with h
                  exact (ihp rest1 hlt1).1 (h ▸ hsub2)
                · intro v rest h
                  simp only [parse_dict, hdig, if_true, hsub, hsub2] at h
                  cases h
              | ok q =>
                obtain ⟨v2, rest2⟩ := q
                have hrest2 : rest2.length ≤ rest1.length :=
                  (ihp rest1 hlt1).2 v2 rest2 hsub2
                have hlt2 : rest2.length < fuel := by omega
                constructor
                · intro h
                  simp only [parse_dict, hdig, if_true, hsub, hsub2] at h
                  exact (ihd (indexInsert m key v2) rest2 hlt2).1 h
                · intro v rest h
                  simp only [parse_dict, hdig, if_true, hsub, hsub2] at h
                  have := (ihd (indexInsert m key v2) rest2 hlt2).2 v rest h
                  simp only [List.length_cons]
                  omega
            | Number n =>
              constructor
              · intro h
                simp only [parse_dict, hdig, if_true, hsub] at h
                injection h with h
                cases h
              · intro v rest h
                simp only [parse_dict, hdig, if_true, hsub] at h
                cases h
            | List l =>
              constructor
              · intro h
                simp only [parse_dict, hdig, if_true, hsub] at h
                injection h with h
                cases h
              · intro v rest h
                simp only [parse_dict, hdig, if_true, hsub] at h
                cases h
            | Dict d =>
              constructor
              · intro h
                simp only [parse_dict, hdig, if_true, hsub] at h
                injection h with h
                cases h
              · intro v rest h
                simp only [parse_dict, hdig, if_true, hsub] at h
                cases h
        · have hdigf : is_digit b = false := Bool.eq_false_iff.2 hdig
          by_cases h101 : b = 101
          · subst h101
            constructor
            · intro h
              simp only [parse_dict, hdigf, Bool.false_eq_true, if_false,
                if_pos rfl] at h
              cases h
            · intro v rest h
              simp only [parse_dict, hdigf, Bool.false_eq_true, if_false,
                if_pos rfl] at h
              injection h with h1
              injection h1 with h1a h2
              simp [← h2]
          · constructor
            · intro h
              simp only [parse_dict, hdigf, Bool.false_eq_true, if_false,
                if_neg h101] at h
              injection h with h
              cases h
            · intro v rest h
              simp only [parse_dict, hdigf, Bool.false_eq_true, if_false,
                if_neg h101] at h
              cases h

/-- The artificial out-of-fuel error of the model is unreachable from
`decode`: fuel `input.length + 1` always suffices, because every unit of fuel
spent consumes at least one input byte. -/
theorem parse_fuel_sufficient (input : List Nat) : decode input ≠ .error .fuelOut := by
  intro h
  rw [decode] at h
  cases hp : parse (input.length + 1) input with
  | ok p =>
    rw [hp] at h
    cases h
  | error e =>
    rw [hp] at h
    injection h with h
    exact ((parse_nf_consume (input.length + 1)).1 input (by omega)).1 (h ▸ hp)
